import Mathlib

/-!
# Verification of the apostrophe schema composer and query cursor

This file gives a shallow embedding, in Lean 4, of the two source files of the
repository:

* `src/lib/modules/apostrophe-schemas/index.js` — the schema composer
  (`compose`, group assignment, the contiguity stabilisation pass, the
  move-default-group-to-the-end pass, the template-to-partial pass) and the
  join-selection logic of `self.join` (discovery of join fields, `_dotPath`
  construction, filtering by an explicit `withJoins` selector and computation
  of the nested selector passed one level down).
* `src/lib/modules/apostrophe-docs/lib/cursor.js` — the query cursor
  (the finalizer wrapper installed by `addFilter`, the `finalize` series, the
  `trash` and `page`/`perPage` filters, `toObject`, and `mongoToArray`).

JavaScript values are modelled with ordinary Lean data: `undefined` becomes
`none`, JS objects become structures, and JS falsiness of strings/numbers is
translated explicitly (`""` and `0` are falsy) at each site where the source
tests truthiness.  The model represents well-formed configuration values
(group declarations carry string names/labels and array-valued `fields`);
malformed configurations that would make the JS throw `TypeError`s are outside
the model.  Every definition is translated directly from the source file it
names; the two definitions whose doc comments say `Modelled from the spec:`
model code of the project that is not part of `src/` (the `launder` module).

A second, heap-instrumented copy of `compose` (`HeapC.composeH`) runs the same
passes over *addresses* into an explicit store, in order to express the
object-identity facts of the source (fields are incorporated by reference and
mutated in place), which the value-level model cannot state.
-/

namespace Apos

/-! ## Data model for schema fields and groups (apostrophe-schemas/index.js) -/

/-- The group descriptor attached to a field by `compose`: a deep clone of the
group with its `fields` membership list deleted (`index.js` lines 165–167 and
189–191).  `last` mirrors the group's `last` flag (absent = `false`). -/
structure GroupRef where
  name : String
  label : String
  last : Bool
deriving DecidableEq, Repr

/-- A schema group as configured via `arrangeFields` or built as the default
group: `{name, label, fields, last}`. -/
structure Group where
  name : String
  label : String
  fields : List String
  last : Bool
deriving DecidableEq, Repr

/-- A schema field.  Only the properties that the composition passes read or
write are modelled: `name`, `type` (called `ftype` here), `label`, `required`,
the `group` back-reference set by `compose`, and the `template` property which
the final pass of `compose` moves to the `partial` property (called `renderFn`
here).  `label` doubles as the distinguishing payload when two field objects
share a name. -/
structure Field where
  name : String
  ftype : String
  label : String
  required : Bool := false
  group : Option GroupRef := none
  template : Option String := none
  renderFn : Option String := none
deriving DecidableEq, Repr

/-- The group name carried by a field, with `""` for "no group": the source
tests `field.group && field.group.name`, and both an absent group and an empty
name are falsy there. -/
def grpName (f : Field) : String :=
  match f.group with
  | some g => g.name
  | none => ""

/-- Caller-level default-group override (`self.options.defaultGroup`),
consulted at `index.js` line 99. -/
structure DefaultGroup where
  name : String
  label : String
deriving DecidableEq, Repr

/-- The `arrangeFields` option: absent, a list of plain field names (which
replaces the default group's membership), or a list of group records
(`index.js` lines 109–120, which branch on the type of the first element). -/
inductive Arrange where
  | unset
  | names (ns : List String)
  | grouped (gs : List Group)

/-- The options object accepted by `compose` (`index.js` line 53).
`alterFields` receives the working field list with full read/write access. -/
structure ComposeOptions where
  addFields : List Field := []
  removeFields : List String := []
  requireFields : List String := []
  alterFields : Option (List Field → List Field) := none
  arrangeFields : Arrange := .unset

/-! ## The compose passes (value model) -/

/-- Remove the first field with the given name, if any — the
`for (i...) if (schema[i].name === field.name) { splice(i, 1); break; }`
loop of `index.js` lines 64–69. -/
def removeFirstByName : List Field → String → List Field
  | [], _ => []
  | f :: rest, n => if f.name = n then rest else f :: removeFirstByName rest n

/-- `_.find(schema, { name: n })`. -/
def findByName (l : List Field) (n : String) : Option Field :=
  l.find? (fun f => f.name = n)

/-- The `addFields` pass (`index.js` lines 59–73): each add removes any
already-added field of the same name and then appends. -/
def addFieldsPass (adds : List Field) : List Field :=
  adds.foldl (fun sch f => removeFirstByName sch f.name ++ [f]) []

/-- The `requireFields` pass for one name (`index.js` lines 82–91): find the
first field of that name and set `required = true`; names not present are
silently ignored. -/
def setRequiredFirst : List Field → String → List Field
  | [], _ => []
  | f :: rest, n =>
      if f.name = n then { f with required := true } :: rest
      else f :: setRequiredFirst rest n

/-- The working field list after `addFields`, `removeFields`, `requireFields`
and `alterFields` (`index.js` lines 59–96). -/
def composeWorking (o : ComposeOptions) : List Field :=
  let s := addFieldsPass o.addFields
  let s := s.filter (fun f => !(o.removeFields.contains f.name))
  let s := o.requireFields.foldl setRequiredFirst s
  match o.alterFields with
  | some alt => alt s
  | none => s

/-- `JavaScript Array.prototype.splice(i, 0, a)`: insert at `i`, clamped to the
end of the list when `i` exceeds its length. -/
def spliceIn (l : List α) (i : Nat) (a : α) : List α :=
  l.take i ++ a :: l.drop i

/-- The name of the default group: `defaultGroup.name || 'default'`
(`index.js` line 102; the empty string is falsy). -/
def dgNameOf : Option DefaultGroup → String
  | some d => if d.name = "" then "default" else d.name
  | none => "default"

/-- The label of the default group: `defaultGroup.label || 'Info'`. -/
def dgLabelOf : Option DefaultGroup → String
  | some d => if d.label = "" then "Info" else d.label
  | none => "Info"

/-- The default group (`index.js` lines 98–106): name and label from the
caller-level override when present and non-falsy, else
`"default"` / `"Info"`; its `fields` start as all working field names. -/
def defaultGroupOf (dg : Option DefaultGroup) (working : List Field) : Group :=
  { name := dgNameOf dg
    label := dgLabelOf dg
    fields := working.map (·.name)
    last := false }

/-- The `arrangeFields` branch (`index.js` lines 108–120): a non-empty list of
strings replaces the default group's membership; a non-empty list of group
records empties the default group's membership and appends the records. -/
def applyArrange (g0 : Group) : Arrange → List Group
  | .unset => [g0]
  | .names ns => if ns.isEmpty then [g0] else [{ g0 with fields := ns }]
  | .grouped gs => if gs.isEmpty then [g0] else { g0 with fields := [] } :: gs

/-- Remove the first group with the given name
(`_.findIndex(newGroups, { name }) … splice(index, 1)`). -/
def removeFirstGroupNamed : List Group → String → List Group
  | [], _ => []
  | g :: rest, n => if g.name = n then rest else g :: removeFirstGroupNamed rest n

/-- The group de-duplication pass (`index.js` lines 135–147): later groups of
the same name replace earlier ones; each group is inserted before the first
group flagged `last: true`, or — note the source reads the length of the
*original* `groups` array here — at the (clamped) end when there is none. -/
def dedupGroups (gs : List Group) : List Group :=
  gs.foldl
    (fun ng g =>
      let ng := removeFirstGroupNamed ng g.name
      let i := match ng.findIdx? (fun h => h.last) with
        | some i => i
        | none => gs.length
      spliceIn ng i g)
    []

/-- The clone-minus-`fields` of a group attached to each field
(`var g = _.clone(group, true); delete g.fields;`). -/
def groupRef (g : Group) : GroupRef :=
  { name := g.name, label := g.label, last := g.last }

/-- One step of the group-assignment pass (`index.js` lines 152–185) for one
name listed in a group: take the field from the working pool (or, failing
that, from the schema built so far), set its `group`, remove any same-named
earlier entry of the new schema, append, and remove it from the pool. -/
def assignStep (g : Group) (st : List Field × List Field) (fieldName : String) :
    List Field × List Field :=
  let (pool, acc) := st
  match findByName pool fieldName with
  | some f =>
      (removeFirstByName pool fieldName,
       removeFirstByName acc fieldName ++ [{ f with group := some (groupRef g) }])
  | none =>
      match findByName acc fieldName with
      | some f =>
          (pool, removeFirstByName acc fieldName ++ [{ f with group := some (groupRef g) }])
      | none => (pool, acc)

/-- The full group-assignment pass: loop over the groups, and over each
group's field names, moving fields out of the pool into the new schema.
Returns (remaining pool, new schema). -/
def assignGroups (gs : List Group) (pool : List Field) : List Field × List Field :=
  gs.foldl (fun st g => g.fields.foldl (assignStep g) st) (pool, [])

/-- The deduped group list used by `compose`. -/
def composeGroups (dg : Option DefaultGroup) (o : ComposeOptions) : List Group :=
  dedupGroups (applyArrange (defaultGroupOf dg (composeWorking o)) o.arrangeFields)

/-- The schema after group assignment and the leftover pass
(`index.js` lines 150–195): assigned fields first, then every field still in
the pool with a clone of `groups[0]` (the deduped list is never empty in the
source, since it always starts from the default group; the `getD` fallback is
unreachable). -/
def composeGrouped (dg : Option DefaultGroup) (o : ComposeOptions) : List Field :=
  let w := composeWorking o
  let gs := composeGroups dg o
  let st := assignGroups gs w
  let g0 := gs.head?.getD (defaultGroupOf dg w)
  st.2 ++ st.1.map (fun f => { f with group := some (groupRef g0) })

/-- One step of the ordering-stabilisation pass (`index.js` lines 201–213):
fields whose group has a falsy name are dropped; the first field of a group is
pushed and the insertion index for that group recorded as the length *after*
the push; later fields of the group are spliced in at the recorded index,
which is then incremented. -/
def stabStep (st : List Field × List (String × Nat)) (f : Field) :
    List Field × List (String × Nat) :=
  let (out, idx) := st
  if grpName f = "" then st
  else
    match (idx.find? (fun p => p.1 = grpName f)).map (·.2) with
    | some i => (spliceIn out i f, idx.map (fun p => if p.1 = grpName f then (p.1, p.2 + 1) else p))
    | none => (out ++ [f], idx ++ [(grpName f, out.length + 1)])

/-- The ordering-stabilisation pass over a whole field list. -/
def stabilize (l : List Field) : List Field :=
  (l.foldl stabStep ([], [])).1

/-- Whether a field is in the group *literally named* `'default'` — the test
`field.group && (field.group.name === 'default')` of `index.js` line 221.
Note the hardcoded name: a renamed default group does not match. -/
def isDefaultGrp (f : Field) : Bool :=
  grpName f = "default"

/-- The move-the-default-group-to-the-end pass (`index.js` lines 220–224). -/
def moveDefaultLast (l : List Field) : List Field :=
  l.filter (fun f => !(isDefaultGrp f)) ++ l.filter isDefaultGrp

/-- The template pass (`index.js` lines 232–240): a field's `template`
property is moved to its `partial` property (`renderFn` here; a string
template is wrapped by `self.partialer`, a function template is used
directly — both are represented by the template's payload). -/
def applyTemplate (f : Field) : Field :=
  match f.template with
  | some t => { f with renderFn := some t, template := none }
  | none => f

/-- `self.compose(options)` (`index.js` lines 53–260).  The select-field
`showFields` validation at lines 244–257 only logs a warning for dangling
references (and throws only on a non-array `showFields`, a malformed value
outside this model), so it does not alter the returned schema. -/
def compose (dg : Option DefaultGroup) (o : ComposeOptions) : List Field :=
  (moveDefaultLast (stabilize (composeGrouped dg o))).map applyTemplate

/-! ## Predicates used to state the grouping invariants -/

/-- Boolean test for membership in the group named `n`. -/
def hasGrp (n : String) (f : Field) : Bool :=
  grpName f == n

/-- A field list is a concatenation of *blocks*, one per group name, with
pairwise-distinct block names: the direct formalisation of "all fields
sharing a group name occupy one contiguous run of the field order". -/
def GroupedRuns (l : List Field) : Prop :=
  ∃ bs : List (String × List Field),
    l = (bs.map Prod.snd).flatten ∧
    (bs.map Prod.fst).Nodup ∧
    ∀ p ∈ bs, ∀ f ∈ p.2, grpName f = p.1

/-- A field list that is a concatenation of blocks whose name sequence is a
sublist of `ns` (so blocks appear in the order of `ns`, at most once each). -/
def RunsOver (ns : List String) (l : List Field) : Prop :=
  ∃ bs : List (String × List Field),
    l = (bs.map Prod.snd).flatten ∧
    (bs.map Prod.fst).Sublist ns ∧
    ∀ p ∈ bs, ∀ f ∈ p.2, grpName f = p.1

/-- The invariant of the inner loop of the group-assignment pass, while group
`d`-named fields are being appended: the schema built so far splits into the
runs of previously processed groups followed by the current group's run. -/
def InnerInv (ns : List String) (d : String) (acc : List Field) : Prop :=
  ∃ old cur, acc = old ++ cur ∧ RunsOver ns old ∧ (∀ f ∈ cur, grpName f = d)

/-- The blocks that actually contribute to the stabilisation pass: a block
whose name is falsy is skipped field-by-field, and an empty block leaves no
trace in the pass state. -/
def keptBlocks (bs : List (String × List Field)) : List (String × List Field) :=
  bs.filter (fun p => !(p.1 == "") && !(p.2.isEmpty))

/-- The `groupIndexes` map that the stabilisation pass has built once a block
list has been processed: each block's name maps to the position just past that
block's run, in block order, starting from position `pos`. -/
def idxOfBlocks : List (String × List Field) → Nat → List (String × Nat)
  | [], _ => []
  | p :: rest, pos => (p.1, pos + p.2.length) :: idxOfBlocks rest (pos + p.2.length)

/-- The property claimed of the default group — "the fields assigned to the
default group form the suffix of the field order returned by compose: no
default-group field precedes a field of any other group" — where the default
group's name is whatever the caller-level override configured
(`dgNameOf dg`): for every earlier/later pair in the composed order, if the
earlier field is in the default group, so is the later one. -/
def DefaultSuffix (dg : Option DefaultGroup) (o : ComposeOptions) : Prop :=
  (compose dg o).Pairwise (fun f f2 => grpName f = dgNameOf dg → grpName f2 = dgNameOf dg)

/-! ## Join selection (`self.join`, apostrophe-schemas/index.js lines 554–702)

A schema walked by `self.join` can nest further schemas inside `array` fields,
so the field type here is a genuinely recursive tree. -/

/-- A schema field as seen by `self.join`: name, type, join target type, the
join's own configured `withJoins` list, the `ifOnlyOne` restriction, and the
nested sub-schema (used when the type is `array`). -/
inductive JField where
  | mk : (name ftype withType : String) → (withJoins : Option (List String)) →
      (ifOnlyOne : Bool) → (sub : List JField) → JField

def JField.name : JField → String
  | .mk n _ _ _ _ _ => n

def JField.ftype : JField → String
  | .mk _ t _ _ _ _ => t

def JField.withType : JField → String
  | .mk _ _ w _ _ _ => w

def JField.withJoins : JField → Option (List String)
  | .mk _ _ _ w _ _ => w

def JField.ifOnlyOne : JField → Bool
  | .mk _ _ _ _ i _ => i

def JField.sub : JField → List JField
  | .mk _ _ _ _ _ s => s

/-- Which field types declare a `join` driver: exactly the four join types
registered with `addFieldType` (`index.js` lines 1196–1308); the test in the
source is `!!self.fieldTypes[field.type].join`. -/
def hasJoinDriver (t : String) : Bool :=
  t = "joinByOne" || t = "joinByOneReverse" || t = "joinByArray" || t = "joinByArrayReverse"

/-- The per-join record assembled by `findJoins` (`index.js` lines 581–604):
`dotPath` is the array-nesting path joined with `.`, and `arrays` is the
`_arrays` property — left unset (`none`) when the `ifOnlyOne` restriction
applies and more than one object is being joined. -/
structure JoinDesc where
  name : String
  ftype : String
  withType : String
  withJoins : Option (List String)
  dotPath : String
  arrays : Option (List String)
deriving DecidableEq, Repr

/-- Build a `JoinDesc` for a join field found at the given array-nesting
path. -/
def descOf (manyObjects : Bool) (arrays : List String) (f : JField) : JoinDesc :=
  { name := f.name
    ftype := f.ftype
    withType := f.withType
    withJoins := f.withJoins
    dotPath := if arrays.isEmpty then f.name else String.intercalate "." arrays ++ "." ++ f.name
    arrays := if manyObjects && f.ifOnlyOne then none else some arrays }

mutual

/-- `findJoins(schema, arrays)` (`index.js` lines 581–604): first every join
field at this level (in schema order), then, for each `array` field in order,
the joins of its sub-schema one level deeper. -/
def findJoinsFrom (manyObjects : Bool) (arrays : List String) (schema : List JField) :
    List JoinDesc :=
  (schema.filter (fun f => hasJoinDriver f.ftype)).map (descOf manyObjects arrays) ++
    subJoins manyObjects arrays schema
termination_by (sizeOf schema, 1)

/-- The recursion of `findJoins` into the sub-schemas of `array` fields. -/
def subJoins (manyObjects : Bool) (arrays : List String) : List JField → List JoinDesc
  | [] => []
  | f :: rest =>
      (if f.ftype = "array" then findJoinsFrom manyObjects (arrays ++ [f.name]) f.sub else []) ++
        subJoins manyObjects arrays rest
termination_by l => (sizeOf l, 0)
decreasing_by
  · cases f with | mk a b c d e s => simp [JField.sub]; omega
  · simp; omega

end

/-- Append a remainder path to `withJoinsNext[dotPath]`, creating the entry
when absent (`index.js` lines 629–632). -/
def pushNext (next : List (String × List String)) (k v : String) :
    List (String × List String) :=
  match next.find? (fun p => p.1 = k) with
  | some _ => next.map (fun p => if p.1 = k then (p.1, p.2 ++ [v]) else p)
  | none => next ++ [(k, [v])]

/-- `withJoinsNext[dotPath] = v` (plain assignment, used in the
no-explicit-selector branch at `index.js` line 644). -/
def setNext (next : List (String × List String)) (k : String) (v : List String) :
    List (String × List String) :=
  match next.find? (fun p => p.1 = k) with
  | some _ => next.map (fun p => if p.1 = k then (p.1, v) else p)
  | none => next ++ [(k, v)]

/-- One requested path tested against one join's `_dotPath`
(`index.js` lines 623–635): an exact match wins; a path of which `_dotPath`
is a strict prefix (`withJoinName.substr(0, dotPath.length + 1) ===
dotPath + "."`) wins and records the remainder after the dot as a nested
selector for this join.  Note the loop continues after a win, so several
requested paths can each contribute a remainder. -/
def winnerStep (dotPath : String) (st : Bool × List (String × List String)) (w : String) :
    Bool × List (String × List String) :=
  if w = dotPath then (true, st.2)
  else if w.take (dotPath.length + 1) = dotPath ++ "." then
    (true, pushNext st.2 dotPath (w.drop (dotPath.length + 1)))
  else st

/-- The `_.filter(joins, …)` of the explicit-`withJoins` branch
(`index.js` lines 619–637), which also accumulates `withJoinsNext` across the
filtered joins (the callback closes over it). -/
def selectJoins (joins : List JoinDesc) (withJoins : List String) :
    List JoinDesc × List (String × List String) :=
  joins.foldl
    (fun st j =>
      let r := withJoins.foldl (winnerStep j.dotPath) (false, st.2)
      (if r.1 then st.1 ++ [j] else st.1, r.2))
    ([], [])

/-- The `withJoins` argument of `self.join`: absent (`undefined`), the literal
`false`, or an explicit list of dot-paths. -/
inductive WithJoinsArg where
  | absent
  | off
  | paths (ps : List String)

/-- The value passed as `options.filters.joins` for one nested fetch:
`withJoinsNext[join._dotPath] || false` (`index.js` line 684).  An array —
even an empty one — is truthy in JS, so only an absent entry becomes
`false`. -/
inductive JoinsOpt where
  | off
  | paths (ps : List String)
deriving DecidableEq, Repr

/-- Look up the nested selector for a dot-path, applying the `|| false`. -/
def nextFor (next : List (String × List String)) (dp : String) : JoinsOpt :=
  match next.find? (fun p => p.1 = dp) with
  | some p => .paths p.2
  | none => .off

/-- The joins that one call of `self.join` hands to `async.eachSeries`
(`index.js` lines 560–701), each with the `options.filters.joins` value its
driver invocation receives: `false` aborts everything; an explicit path list
keeps exactly the winners of `selectJoins`; an absent argument keeps every
discovered join and passes down each join's own configured `withJoins`.
Joins not in this list are never iterated, so no store fetch occurs for
them. -/
def joinInvocations (manyObjects : Bool) (schema : List JField) (w : WithJoinsArg) :
    List (String × JoinsOpt) :=
  match w with
  | .off => []
  | .paths ps =>
      let joins := findJoinsFrom manyObjects [] schema
      let sel := selectJoins joins ps
      sel.1.map (fun j => (j.dotPath, nextFor sel.2 j.dotPath))
  | .absent =>
      let joins := findJoinsFrom manyObjects [] schema
      let next := joins.foldl
        (fun n j => match j.withJoins with
          | some wj => setNext n j.dotPath wj
          | none => n) []
      joins.map (fun j => (j.dotPath, nextFor next j.dotPath))

end Apos

namespace Apos.Cursor

/-! ## Cursor model (apostrophe-docs/lib/cursor.js) -/

/-- A MongoDB-style value, used for criteria objects. -/
inductive MVal where
  | str (s : String)
  | num (n : Int)
  | bool (b : Bool)
  | arr (xs : List MVal)
  | obj (fields : List (String × MVal))

/-- JS truthiness for the modelled values: `false`, `0` and `""` are falsy;
arrays and objects are always truthy. -/
def truthy : MVal → Bool
  | .bool b => b
  | .num n => n != 0
  | .str s => s != ""
  | .arr _ => true
  | .obj _ => true

/-- The `and` filter's set function (`cursor.js` lines 213–228): falsy input
is ignored; otherwise the new criteria object is conjoined with any existing
criteria under `$and` (never key-merged). -/
def andCriteria (c0 : Option MVal) (c : MVal) : Option MVal :=
  if !(truthy c) then c0
  else
    match c0 with
    | none => some c
    | some old => some (.obj [("$and", .arr [old, c])])

/-- The clause conjoined by the `trash` filter's exclude branch
(`cursor.js` lines 596–605): trash absent or trash false, as an `$or` —
`$ne: true` is avoided because it is nonselective. -/
def excludeTrashedClause : MVal :=
  .obj [("$or", .arr [
    .obj [("trash", .obj [("$exists", .num 0)])],
    .obj [("trash", .bool false)]])]

/-- The clause conjoined when only trashed docs are requested
(`cursor.js` lines 608–610). -/
def trashTrueClause : MVal :=
  .obj [("trash", .bool true)]

/-- The cursor state consulted by the `trash` finalizer.  The tri-state value:
`none` = `undefined` (never called, or called with `undefined`),
`some none` = `null`, `some (some b)` = a boolean. -/
structure TrashState where
  trash : Option (Option Bool) := none
  criteria : Option MVal := none

/-- The `trash` filter declares no `def`, so `definition.def` is `undefined`:
the default applied by the finalizer wrapper when the filter was never
called. -/
def trashDef : Option (Option Bool) := none

/-- The finalizer wrapper's default application (`cursor.js` lines 146–150):
if the filter's value is still `undefined` at finalization, the filter method
is called with `definition.def` — which for `trash` stores `undefined`
again. -/
def trashApplyDef (s : TrashState) : TrashState :=
  if s.trash = none then { s with trash := trashDef } else s

/-- The `trash` finalizer (`cursor.js` lines 585–616), including the
wrapper's default application: `null` leaves the criteria alone; any falsy
value (`undefined` from never calling the filter, or `false`) conjoins the
exclude-trashed clause; `true` conjoins `{ trash: true }`. -/
def trashFinalize (s : TrashState) : TrashState :=
  let s := trashApplyDef s
  match s.trash with
  | some none => s
  | some (some true) => { s with criteria := andCriteria s.criteria trashTrueClause }
  | _ => { s with criteria := andCriteria s.criteria excludeTrashedClause }

/-- The cursor state consulted by the `page` finalizer: the four number-valued
filters involved, each `none` when unset (`undefined`). -/
structure PageState where
  page : Option Int := none
  perPage : Option Int := none
  skip : Option Int := none
  limit : Option Int := none
deriving DecidableEq, Repr

/-- JS truthiness of a number filter value: `undefined` and `0` are falsy. -/
def numTruthy : Option Int → Bool
  | none => false
  | some n => n != 0

/-- The finalizer wrapper's default application for `page`, whose declared
`def` is `1` (`cursor.js` line 424). -/
def pageApplyDef (s : PageState) : PageState :=
  if s.page = none then { s with page := some 1 } else s

/-- The `page` finalizer (`cursor.js` lines 428–434): when `perPage` is
truthy, set `skip = (page - 1) * perPage` and `limit = perPage` through the
`skip` and `limit` filters.  The fallthrough arm is unreachable: after the
default application `page` is always set, and a truthy `perPage` is `some`. -/
def pageFinalize (s : PageState) : PageState :=
  let s1 := pageApplyDef s
  if numTruthy s1.perPage then
    match s1.perPage, s1.page with
    | some pp, some p => { s1 with skip := some ((p - 1) * pp), limit := some pp }
    | _, _ => s1
  else s1

/-- Modelled from the spec: the `page` filter's launder is
`apos.launder.integer(i, 1, 1)` from the launder module, which is not part of
`src/`.  Per the spec, page numbers are laundered with default `1` and a
minimum of `1`: non-numeric input (`none`) falls back to the default and
numeric input is clamped from below. -/
def launderPageInt : Option Int → Int
  | none => 1
  | some i => max i 1

/-- A fetched document: a flat property map (property name to value). -/
abbrev Doc := List (String × String)

/-- `doc[prop]` — `none` for an absent property. -/
def docGet (d : Doc) (prop : String) : Option String :=
  (d.find? (fun p => p.1 = prop)).map (·.2)

/-- What one registered filter's `finalize` does when the finalizer wrapper
runs it: a callback-taking finalizer (`finalize.length === 1`) reports an
error or success through its callback; a synchronous finalizer either returns
normally or throws. -/
inductive FinalizerCode where
  | cb (err : Option String)
  | syncRet
  | syncThrow (e : String)
deriving DecidableEq, Repr

/-- The error that the wrapper built by `addFilter` delivers to
`async.series` for one finalizer (`cursor.js` lines 146–160).  A
callback-style finalizer's error passes straight through.  A synchronous
finalizer's wrapper runs it under `try`; on a normal return it calls
`callback(null, returned)` — and in the `catch` branch it calls
`callback(null, e)`, passing the thrown error in the *result* position, so
`async.series` never sees an error from a synchronous throw.  (Contrast the
`after` wrapper at lines 172–177, whose catch correctly calls
`callback(e)`.) -/
def deliveredErr : FinalizerCode → Option String
  | .cb e => e
  | .syncRet => none
  | .syncThrow _ => none

/-- `async.series` over the finalizer wrappers (`cursor.js` line 981): run in
registration order, stopping at the first delivered error.  Returns the
delivered error (if any) and how many finalizers ran. -/
def seriesRun : List FinalizerCode → Option String × Nat
  | [] => (none, 0)
  | f :: rest =>
      match deliveredErr f with
      | some e => (some e, 1)
      | none =>
          let r := seriesRun rest
          (r.1, r.2 + 1)

/-- The error `self.finalize` delivers to its caller (`cursor.js` lines
975–991).  The source additionally restarts the whole series when the
delivered error is the string `refinalize`; none of the finalizer behaviours
modelled here deliver that sentinel, so the restart branch never triggers for
them. -/
def finalizeDelivers (fs : List FinalizerCode) : Option String :=
  (seriesRun fs).1

/-- The outcome `toArray` hands its caller, as far as finalization is
concerned (`cursor.js` lines 824–830): a finalize error is passed through and
no results are delivered; otherwise the fetched docs are delivered. -/
def toArrayOutcome (fs : List FinalizerCode) (fetched : List Doc) :
    Except String (List Doc) :=
  match finalizeDelivers fs with
  | some e => .error e
  | none => .ok fetched

/-- `self.mongoToArray(mongo, callback)` (`cursor.js` lines 996–1017).  The
source invokes `mongo.toArray(callback, function(err, results) {…})`: the
MongoDB cursor's `toArray` takes a single callback, so the raw fetched
results are delivered directly to `callback` and the second function — the
one that would reorder the results per `explicitOrder` — is a dead extra
argument that is never invoked.  (Had it ever run, it would throw a
`ReferenceError`: it reads the undeclared identifiers `idProperty` and `ids`
instead of `explicitOrderProperty` and the `explicitOrder` value.)  The
observable behaviour is therefore a passthrough of the fetch outcome,
whatever the `explicitOrder` state holds. -/
def mongoToArray (explicitOrder : Option (List String))
    (explicitOrderProperty : Option String) (fetched : Except String (List Doc)) :
    Except String (List Doc) :=
  fetched

/-- Modelled from the spec: the behaviour the `explicitOrder` contract
describes for a fetch-many result — keep exactly the fetched documents whose
identity property (default `_id`) appears in the id sequence, reordered to the
sequence's order; ids with no matching document contribute nothing.  Used
only to state what the source diverges from. -/
def explicitOrderContract (ids : List String) (prop : String) (docs : List Doc) :
    List Doc :=
  ids.filterMap (fun i => docs.find? (fun d => docGet d prop = some i))

/-- The three observables of one `toObject` call (`cursor.js` lines 771–781):
the delivered result, the `limit` in cursor state while the underlying
`toArray` executes, and the `limit` left in cursor state after the call. -/
structure ToObjectOut where
  result : Except String (Option Doc)
  execLimit : Option Int
  finalLimit : Option Int
deriving Repr

/-- `self.toObject(callback)` (`cursor.js` lines 771–781): save the current
`limit`, set it to `1`, run `toArray` (modelled by `fetch`, a function of the
limit in effect), and deliver `results[0]`.  The saved limit is written back
only on the success path; the error path returns immediately with the limit
still `1`. -/
def toObjectRun (limit0 : Option Int) (fetch : Option Int → Except String (List Doc)) :
    ToObjectOut :=
  let lim1 : Option Int := some 1
  match fetch lim1 with
  | .error e => { result := .error e, execLimit := lim1, finalLimit := lim1 }
  | .ok rs => { result := .ok rs.head?, execLimit := lim1, finalLimit := limit0 }

end Apos.Cursor

namespace Apos.HeapC

/-! ## Heap-instrumented compose

The value model above cannot express the object-identity facts of the source:
`compose` pushes the very field objects of `options.addFields` into the schema
it returns and mutates them in place.  Here the same passes run over
*addresses* into an explicit store.  Arrays of JS object references become
`List Addr`; reading a property goes through the store; mutating an object
becomes a pointwise store update at its address.  Groups are plain values
(their objects' identity plays no role in the claims). -/

abbrev Addr := Nat

/-- The object store: each address holds a field object. -/
abbrev Store := Addr → Field

/-- Mutate the object at one address. -/
def upd (st : Store) (a : Addr) (f : Field) : Store :=
  fun x => if x = a then f else st x

/-- `compose` options with `addFields` as a list of references to caller-owned
field objects.  `alterFields` is omitted: an arbitrary callback could
introduce objects of its own, and the claim's source lines are the
`addFields`, `requireFields`, group-assignment and template passes. -/
structure HeapOptions where
  addFields : List Addr := []
  removeFields : List String := []
  requireFields : List String := []
  arrangeFields : Arrange := .unset

/-- Address-level `removeFirstByName` (names read through the store). -/
def removeFirstByNameH (st : Store) : List Addr → String → List Addr
  | [], _ => []
  | a :: rest, n => if (st a).name = n then rest else a :: removeFirstByNameH st rest n

/-- The `addFields` pass over references: the schema array receives the
caller's objects themselves; no object is copied and the store is
untouched. -/
def addFieldsPassH (st : Store) (adds : List Addr) : List Addr :=
  adds.foldl (fun sch a => removeFirstByNameH st sch (st a).name ++ [a]) []

/-- `requireFields` for one name: `field.required = true` mutates the found
object in place. -/
def setRequiredFirstH (st : Store) (l : List Addr) (n : String) : Store :=
  match l.find? (fun a => (st a).name = n) with
  | some a => upd st a { st a with required := true }
  | none => st

/-- One step of the group-assignment pass over references: `f.group = g`
mutates the object; the schema arrays only move the reference around. -/
def assignStepH (g : Group) (st : Store × List Addr × List Addr) (fieldName : String) :
    Store × List Addr × List Addr :=
  let (store, pool, acc) := st
  match pool.find? (fun a => (store a).name = fieldName) with
  | some a =>
      let store' := upd store a { store a with group := some (groupRef g) }
      (store', removeFirstByNameH store' pool fieldName,
        removeFirstByNameH store' acc fieldName ++ [a])
  | none =>
      match acc.find? (fun a => (store a).name = fieldName) with
      | some a =>
          let store' := upd store a { store a with group := some (groupRef g) }
          (store', pool, removeFirstByNameH store' acc fieldName ++ [a])
      | none => (store, pool, acc)

/-- The full group-assignment pass over references. -/
def assignGroupsH (gs : List Group) (store : Store) (pool : List Addr) :
    Store × List Addr × List Addr :=
  gs.foldl (fun st g => g.fields.foldl (assignStepH g) st) (store, pool, [])

/-- The ordering-stabilisation pass over references (it only permutes the
array; no object is mutated). -/
def stabStepH (store : Store) (st : List Addr × List (String × Nat)) (a : Addr) :
    List Addr × List (String × Nat) :=
  let (out, idx) := st
  if grpName (store a) = "" then st
  else
    match (idx.find? (fun p => p.1 = grpName (store a))).map (·.2) with
    | some i =>
        (spliceIn out i a,
         idx.map (fun p => if p.1 = grpName (store a) then (p.1, p.2 + 1) else p))
    | none => (out ++ [a], idx ++ [(grpName (store a), out.length + 1)])

/-- The template pass over references: `field.partial = …; delete
field.template` mutates each schema object in place. -/
def templatePassH (l : List Addr) (store : Store) : Store :=
  l.foldl
    (fun st a =>
      match (st a).template with
      | some t => upd st a { st a with renderFn := some t, template := none }
      | none => st)
    store

/-- The working reference list after the `addFields` and `removeFields`
passes (neither mutates any object). -/
def composeHAdds (o : HeapOptions) (st0 : Store) : List Addr :=
  (addFieldsPassH st0 o.addFields).filter
    (fun a => !(o.removeFields.contains (st0 a).name))

/-- The store after the `requireFields` pass has mutated the listed objects. -/
def composeHReqStore (o : HeapOptions) (st0 : Store) : Store :=
  o.requireFields.foldl (fun st n => setRequiredFirstH st (composeHAdds o st0) n) st0

/-- The default group of the heap-level compose. -/
def composeHDefGroup (dg : Option DefaultGroup) (o : HeapOptions) (st0 : Store) : Group :=
  defaultGroupOf dg ((composeHAdds o st0).map (fun a => composeHReqStore o st0 a))

/-- The deduped group list of the heap-level compose. -/
def composeHGroups (dg : Option DefaultGroup) (o : HeapOptions) (st0 : Store) :
    List Group :=
  dedupGroups (applyArrange (composeHDefGroup dg o st0) o.arrangeFields)

/-- The heap-level group-assignment pass: store plus (pool, new schema). -/
def composeHAssigned (dg : Option DefaultGroup) (o : HeapOptions) (st0 : Store) :
    Store × List Addr × List Addr :=
  assignGroupsH (composeHGroups dg o st0) (composeHReqStore o st0) (composeHAdds o st0)

/-- The store after the leftover fields received a clone of `groups[0]`. -/
def composeHLeftStore (dg : Option DefaultGroup) (o : HeapOptions) (st0 : Store) : Store :=
  (composeHAssigned dg o st0).2.1.foldl
    (fun st a => upd st a { st a with group := some (groupRef
      ((composeHGroups dg o st0).head?.getD (composeHDefGroup dg o st0))) })
    (composeHAssigned dg o st0).1

/-- The reference list after the ordering-stabilisation pass. -/
def composeHStabilized (dg : Option DefaultGroup) (o : HeapOptions) (st0 : Store) :
    List Addr :=
  ((((composeHAssigned dg o st0).2.2 ++ (composeHAssigned dg o st0).2.1).foldl
    (stabStepH (composeHLeftStore dg o st0)) ([], []))).1

/-- The final reference order, default group moved to the end. -/
def composeHFinalList (dg : Option DefaultGroup) (o : HeapOptions) (st0 : Store) :
    List Addr :=
  (composeHStabilized dg o st0).filter
      (fun a => !(isDefaultGrp (composeHLeftStore dg o st0 a)))
    ++ (composeHStabilized dg o st0).filter
      (fun a => isDefaultGrp (composeHLeftStore dg o st0 a))

/-- Heap-instrumented `self.compose`: the same passes as `compose`, over
addresses.  Returns the schema (a list of references to the caller's own
objects) and the store after all in-place mutations. -/
def composeH (dg : Option DefaultGroup) (o : HeapOptions) (st0 : Store) :
    List Addr × Store :=
  (composeHFinalList dg o st0,
   templatePassH (composeHFinalList dg o st0) (composeHLeftStore dg o st0))

end Apos.HeapC

namespace Apos.Fixtures

/-! ## Concrete inputs used by the witnesses and counterexamples -/

def fA : Field := { name := "a", ftype := "string", label := "A" }

def fB : Field := { name := "b", ftype := "string", label := "B" }

/-- A replacement field with `fB`'s name but different content. -/
def fB2 : Field := { name := "b", ftype := "boolean", label := "B two" }

def fC : Field := { name := "c", ftype := "string", label := "C" }

/-- A caller-level default group override that renames the default group. -/
def dgBasics : DefaultGroup := { name := "basics", label := "Basics" }

/-- A spec that arranges the (renamed) default group before another group and
leaves one field (`c`) as a leftover for the default group. -/
def optsRename : ComposeOptions :=
  { addFields := [fA, fB, fC]
    arrangeFields := .grouped
      [ { name := "basics", label := "B", fields := ["a"], last := false }
      , { name := "h", label := "H", fields := ["b"], last := false } ] }

/-- The spec of the same shape without the rename: groups `default` and `h`,
with leftover `c`. -/
def optsDefArranged : ComposeOptions :=
  { addFields := [fA, fB, fC]
    arrangeFields := .grouped
      [ { name := "default", label := "B", fields := ["a"], last := false }
      , { name := "h", label := "H", fields := ["b"], last := false } ] }

/-- The schema of claim C5: top-level joins `_a` and `_c` and one plain
field. -/
def jfA : JField := .mk "_a" "joinByOne" "event" none false []

def jfT : JField := .mk "title" "string" "" none false []

def jfC : JField := .mk "_c" "joinByOne" "place" none false []

def docA : Cursor.Doc := [("_id", "a"), ("title", "Alpha")]

def docB : Cursor.Doc := [("_id", "b"), ("title", "Beta")]

def docX : Cursor.Doc := [("_id", "x"), ("title", "Xi")]

/-- A caller-owned store of field objects: address 0 holds a field named `a`
carrying a template, address 1 a field named `b`; other addresses hold an
unrelated object. -/
def stW : HeapC.Store := fun a =>
  if a = 0 then { name := "a", ftype := "string", label := "A", template := some "fancy" }
  else if a = 1 then { name := "b", ftype := "string", label := "B" }
  else { name := "zz", ftype := "string", label := "Z" }

/-- Heap-level compose options: add the two caller objects, require `a`. -/
def hoW : HeapC.HeapOptions := { addFields := [0, 1], requireFields := ["a"] }

/-- The join descriptor that discovery builds for `jfA`. -/
def descA : JoinDesc :=
  { name := "_a", ftype := "joinByOne", withType := "event", withJoins := none,
    dotPath := "_a", arrays := some [] }

/-- The join descriptor that discovery builds for `jfC`. -/
def descC : JoinDesc :=
  { name := "_c", ftype := "joinByOne", withType := "place", withJoins := none,
    dotPath := "_c", arrays := some [] }

end Apos.Fixtures

namespace Apos

open Cursor Fixtures

/-! ## Helper lemmas -/

/-- The template pass does not touch a field's group. -/
theorem grpName_applyTemplate (f : Field) : grpName (applyTemplate f) = grpName f := by
  unfold applyTemplate
  cases f.template <;> rfl

/-- Join discovery over the C5 schema finds `_a` and `_c`, in schema order. -/
theorem findJoins_C5 : findJoinsFrom true [] [jfA, jfT, jfC] = [descA, descC] := by
  simp [findJoinsFrom, subJoins, jfA, jfT, jfC, hasJoinDriver, descOf, descA, descC,
    JField.ftype, JField.name, JField.withType, JField.withJoins, JField.ifOnlyOne, JField.sub]

/-! ## Claims -/

/-- Claim C1.  The claim states that an error from any filter's finalize phase
— whether reported through the finalizer's callback or thrown synchronously —
aborts the remaining finalize phases and is delivered to the terminal
operation's caller, with no partial results.  The code violates the
synchronous-throw half: the wrapper's catch passes the thrown error in the
*result* position (`callback(null, e)`, `cursor.js` line 158), so the series
sees no error.  This theorem evaluates the model at the failing input: a
synchronously-throwing finalizer followed by another finalizer delivers no
error, the remaining finalizer still runs, and `toArray` hands its caller an
`ok` result; by contrast a callback-reported error does abort after one
finalizer and is delivered. -/
theorem finalize_sync_throw_not_propagated :
    seriesRun [.syncThrow "boom", .cb none] = (none, 2) ∧
    toArrayOutcome [.syncThrow "boom", .cb none] [docA] = .ok [docA] ∧
    seriesRun [.cb (some "boom"), .cb none] = (some "boom", 1) :=
  ⟨rfl, rfl, rfl⟩

/-- Claim C2.  The claim states that with `explicitOrder(['b','a'])` set, a
fetch-many operation returns exactly the fetched documents whose identity
property is in the sequence, in the sequence's order.  The code violates
this: `mongoToArray` passes its reordering function as a dead second argument
to `mongo.toArray`, so the raw fetched results come back unchanged — here
`[a, b, x]` instead of the claimed `[b, a]`.  The middle conjunct evaluates
the claimed behaviour (`explicitOrderContract`) at the same input, and the
last records that the two disagree. -/
theorem mongoToArray_ignores_explicitOrder :
    mongoToArray (some ["b", "a"]) none (.ok [docA, docB, docX]) = .ok [docA, docB, docX] ∧
    explicitOrderContract ["b", "a"] "_id" [docA, docB, docX] = [docB, docA] ∧
    ([docA, docB, docX] : List Doc) ≠ [docB, docA] :=
  ⟨rfl, by decide, by decide⟩

/-- Claim C5.  Resolving joins with the explicit selector `["_a.b"]` against a
schema whose top-level joins are `_a` and `_c`: discovery finds both
(`findJoins_C5` is applied inside), but only `_a` survives the selector
filter, so `_a` alone is handed to the join driver — `_c` is never iterated
and no fetch occurs for it — and the nested selector passed down for `_a`
(as `options.filters.joins`) is exactly `["b"]`. -/
theorem join_selector_nested :
    joinInvocations true [jfA, jfT, jfC] (.paths ["_a.b"]) = [("_a", .paths ["b"])] := by
  simp only [joinInvocations, findJoins_C5]
  decide

/-- Claim C6.  For distinct fields `A` and `B` and a replacement `B2` carrying
`B`'s name, composing with `addFields = [A, B, B2]` (the concatenation of
`[A, B]` and `[B2]`) yields exactly `[A, B2]`: `B2` replaces `B` (last write
wins) and the final order is `A` then `B2`, each carrying the default group
and with the template pass applied. -/
theorem addFields_last_write_wins (A B B2 : Field)
    (hAB : A.name ≠ B.name) (hB2 : B2.name = B.name) :
    compose none { addFields := [A, B, B2] } =
      [applyTemplate { A with group := some ⟨"default", "Info", false⟩ },
       applyTemplate { B2 with group := some ⟨"default", "Info", false⟩ }] := by
  have hab' : A.name ≠ B2.name := by rw [hB2]; exact hAB
  have hbb : B.name = B2.name := hB2.symm
  simp [compose, composeGrouped, composeGroups, composeWorking, addFieldsPass,
    removeFirstByName, findByName, defaultGroupOf, dgNameOf, dgLabelOf, applyArrange,
    dedupGroups, removeFirstGroupNamed, spliceIn, assignGroups, assignStep, groupRef,
    stabilize, stabStep, grpName, moveDefaultLast, isDefaultGrp,
    hAB, hab', hbb, List.find?]

/-- Witness for C6 at the concrete fields `fA`, `fB`, `fB2`. -/
theorem addFields_last_write_wins_witness :
    compose none { addFields := [fA, fB, fB2] } =
      [applyTemplate { fA with group := some ⟨"default", "Info", false⟩ },
       applyTemplate { fB2 with group := some ⟨"default", "Info", false⟩ }] :=
  addFields_last_write_wins fA fB fB2 (by decide) (by decide)

/-- Claim C7.  Finalizing the `trash` filter after `trash(false)` and after
never calling it produce identical criteria: both conjoin the same
exclude-trashed clause (`trash` absent or `trash: false`), for every starting
criteria value; the second conjunct exhibits the clause. -/
theorem trash_false_default_agree (c : Option MVal) :
    (trashFinalize { trash := some (some false), criteria := c }).criteria
      = (trashFinalize { trash := none, criteria := c }).criteria ∧
    (trashFinalize { trash := none, criteria := none }).criteria
      = some excludeTrashedClause :=
  ⟨rfl, rfl⟩

/-- Claim C8.  With both `page` and `perPage` set (and `perPage` truthy),
finalization computes `skip = (page - 1) * perPage` and `limit = perPage`;
and the page launder (modelled from the spec, see `launderPageInt`) clamps
every input to a minimum of 1. -/
theorem page_perPage_skip_limit (p pp : Int) (hpp : pp ≠ 0) :
    (pageFinalize { page := some p, perPage := some pp }).skip = some ((p - 1) * pp) ∧
    (pageFinalize { page := some p, perPage := some pp }).limit = some pp ∧
    (∀ v : Option Int, 1 ≤ launderPageInt v) := by
  refine ⟨?_, ?_, ?_⟩
  · simp [pageFinalize, pageApplyDef, numTruthy, hpp]
  · simp [pageFinalize, pageApplyDef, numTruthy, hpp]
  · intro v
    cases v with
    | none => simp [launderPageInt]
    | some i => simp [launderPageInt]

/-- Witness for C8: `page(2).perPage(10)` finalizes to `skip = 10`,
`limit = 10` — the spec's own example. -/
theorem page_perPage_skip_limit_witness :
    (pageFinalize { page := some 2, perPage := some 10 }).skip = some 10 ∧
    (pageFinalize { page := some 2, perPage := some 10 }).limit = some 10 := by
  have h := page_perPage_skip_limit 2 10 (by decide)
  exact ⟨by simpa using h.1, h.2.1⟩

/-- Counterexample to claim C9 as stated.  The claim says the prior limit is
restored after `toObject` *for every outcome of the underlying fetch*; but
when the fetch errors, `toObject` returns immediately (`cursor.js` line 776)
and the stored limit remains `1`, not the prior `5`. -/
theorem toObject_error_keeps_limit_one :
    (toObjectRun (some 5) (fun _ => .error "storeError")).finalLimit = some 1 ∧
    (some (1 : Int)) ≠ some 5 :=
  ⟨rfl, by decide⟩

/-- Claim C9, amended.  `toObject` sets the limit to 1 for the execution of
the query; after a successful fetch the prior stored limit (whatever it was)
is restored and the first result is delivered; after a failed fetch the error
is passed through and the stored limit remains 1. -/
theorem toObject_limit_restore_on_success (limit0 : Option Int)
    (fetch : Option Int → Except String (List Doc)) :
    (toObjectRun limit0 fetch).execLimit = some 1 ∧
    (∀ rs, fetch (some 1) = .ok rs →
      (toObjectRun limit0 fetch).finalLimit = limit0 ∧
      (toObjectRun limit0 fetch).result = .ok rs.head?) ∧
    (∀ e, fetch (some 1) = .error e → (toObjectRun limit0 fetch).finalLimit = some 1) := by
  refine ⟨?_, ?_, ?_⟩
  · cases h : fetch (some 1) with
    | error e => simp [toObjectRun, h]
    | ok rs => simp [toObjectRun, h]
  · intro rs h
    constructor <;> simp [toObjectRun, h]
  · intro e h
    simp [toObjectRun, h]

/-- Witness for the amended C9: prior limit `5`, fetch succeeding with one
doc — the limit is restored to `5` and the doc delivered. -/
theorem toObject_limit_restore_on_success_witness :
    (toObjectRun (some 5) (fun _ => .ok [docA])).finalLimit = some 5 ∧
    (toObjectRun (some 5) (fun _ => .ok [docA])).result = .ok (some docA) :=
  (toObject_limit_restore_on_success (some 5) (fun _ => .ok [docA])).2.1 [docA] rfl

/-- Counterexample to claim C4 as stated.  With the caller-level default group
override renaming the default group to `basics`, and `arrangeFields` placing
the `basics` group before another group `h`, the leftover field `c` (assigned
to the default group `basics`) ends up *before* `b` (group `h`): the
composed order is `a, c, b`, so the default group's fields are not a suffix.
The move-to-the-end pass matches the literal name `'default'` only
(`index.js` line 221). -/
theorem default_suffix_fails_under_rename : ¬ DefaultSuffix (some dgBasics) optsRename := by
  unfold DefaultSuffix
  decide

/-- Claim C4, amended.  The fields whose assigned group is literally named
`'default'` always form the suffix of the composed order: the result splits
as a prefix with no `'default'`-group field and a suffix of only
`'default'`-group fields.  Under a caller-level rename of the default group
the renamed group's fields need not form a suffix (see the
counterexample). -/
theorem literal_default_group_is_suffix (dg : Option DefaultGroup) (o : ComposeOptions) :
    ∃ pre post, compose dg o = pre ++ post ∧
      (∀ f ∈ pre, grpName f ≠ "default") ∧
      (∀ f ∈ post, grpName f = "default") := by
  refine ⟨((stabilize (composeGrouped dg o)).filter (fun f => !(isDefaultGrp f))).map applyTemplate,
    ((stabilize (composeGrouped dg o)).filter isDefaultGrp).map applyTemplate, ?_, ?_, ?_⟩
  · simp [compose, moveDefaultLast]
  · intro f hf
    obtain ⟨x, hx, rfl⟩ := List.mem_map.1 hf
    have := List.of_mem_filter hx
    rw [grpName_applyTemplate]
    simpa [isDefaultGrp] using this
  · intro f hf
    obtain ⟨x, hx, rfl⟩ := List.mem_map.1 hf
    have := List.of_mem_filter hx
    rw [grpName_applyTemplate]
    simpa [isDefaultGrp] using this

/-- Witness for the amended C4 at a concrete spec (groups `default` and `h`
with a leftover field). -/
theorem literal_default_group_is_suffix_witness :
    ∃ pre post, compose none optsDefArranged = pre ++ post ∧
      (∀ f ∈ pre, grpName f ≠ "default") ∧
      (∀ f ∈ post, grpName f = "default") :=
  literal_default_group_is_suffix none optsDefArranged

end Apos

namespace Apos

theorem removeFirstByName_sublist (l : List Field) (n : String) :
    (removeFirstByName l n).Sublist l := by
  induction l with
  | nil => simp [removeFirstByName]
  | cons f rest ih =>
    unfold removeFirstByName
    by_cases h : f.name = n
    · simp [h]
    · simp only [if_neg h]
      exact List.Sublist.cons₂ f ih

theorem sub_blocks : ∀ (bs : List (String × List Field)) (l' : List Field),
    l'.Sublist ((bs.map Prod.snd).flatten) →
    (∀ p ∈ bs, ∀ f ∈ p.2, grpName f = p.1) →
    ∃ bs' : List (String × List Field),
      l' = (bs'.map Prod.snd).flatten ∧
      bs'.map Prod.fst = bs.map Prod.fst ∧
      (∀ p ∈ bs', ∀ f ∈ p.2, grpName f = p.1) := by
  intro bs
  induction bs with
  | nil =>
    intro l' hs _
    simp at hs
    exact ⟨[], by simp [hs], by simp, by simp⟩
  | cons p rest ih =>
    intro l' hs hty
    simp only [List.map_cons, List.flatten_cons] at hs
    rw [List.sublist_append_iff] at hs
    obtain ⟨x, y, rfl, hx, hy⟩ := hs
    obtain ⟨rest', hy', hnames, hty'⟩ := ih y hy (fun q hq => hty q (List.mem_cons_of_mem p hq))
    refine ⟨(p.1, x) :: rest', ?_, ?_, ?_⟩
    · simp [hy']
    · simp [hnames]
    · intro q hq f hf
      rcases List.mem_cons.1 hq with h | h
      · subst h
        exact hty p (List.mem_cons_self p rest) f (hx.subset hf)
      · exact hty' q h f hf

theorem runsOver_sublist {ns : List String} {l l' : List Field}
    (h : RunsOver ns l) (hs : l'.Sublist l) : RunsOver ns l' := by
  obtain ⟨bs, rfl, hns, hty⟩ := h
  obtain ⟨bs', rfl, hnames, hty'⟩ := sub_blocks bs l' hs hty
  exact ⟨bs', rfl, hnames ▸ hns, hty'⟩

theorem runsOver_nil (ns : List String) : RunsOver ns [] :=
  ⟨[], by simp, by simp, by simp⟩

theorem runsOver_append_block {ns : List String} {old cur : List Field} {d : String}
    (h : RunsOver ns old) (hcur : ∀ f ∈ cur, grpName f = d) :
    RunsOver (ns ++ [d]) (old ++ cur) := by
  obtain ⟨bs, rfl, hns, hty⟩ := h
  refine ⟨bs ++ [(d, cur)], by simp, ?_, ?_⟩
  · simpa using List.Sublist.append hns (List.Sublist.refl [d])
  · intro p hp f hf
    rcases List.mem_append.1 hp with h | h
    · exact hty p h f hf
    · simp at h
      subst h
      exact hcur f hf

end Apos

namespace Apos

theorem innerInv_remove_append {ns : List String} {d : String} {acc : List Field}
    (h : InnerInv ns d acc) (f' : Field) (hf' : grpName f' = d) (nm : String) :
    InnerInv ns d (removeFirstByName acc nm ++ [f']) := by
  obtain ⟨old, cur, rfl, hold, hcur⟩ := h
  have hs : (removeFirstByName (old ++ cur) nm).Sublist (old ++ cur) :=
    removeFirstByName_sublist _ _
  rw [List.sublist_append_iff] at hs
  obtain ⟨x, y, hxy, hx, hy⟩ := hs
  refine ⟨x, y ++ [f'], ?_, runsOver_sublist hold hx, ?_⟩
  · rw [hxy, List.append_assoc]
  · intro f hf
    rcases List.mem_append.1 hf with h | h
    · exact hcur f (hy.subset h)
    · simp at h
      subst h
      exact hf'

theorem grpName_setGroup (f : Field) (g : Group) :
    grpName { f with group := some (groupRef g) } = g.name := rfl

theorem assignStep_eq (g : Group) (pool acc : List Field) (nm : String) :
    assignStep g (pool, acc) nm =
      match findByName pool nm with
      | some f =>
          (removeFirstByName pool nm,
           removeFirstByName acc nm ++ [{ f with group := some (groupRef g) }])
      | none =>
          match findByName acc nm with
          | some f => (pool, removeFirstByName acc nm ++ [{ f with group := some (groupRef g) }])
          | none => (pool, acc) := rfl

theorem innerInv_step {ns : List String} {g : Group} {pool acc : List Field}
    (h : InnerInv ns g.name acc) (nm : String) :
    InnerInv ns g.name (assignStep g (pool, acc) nm).2 := by
  rw [assignStep_eq]
  cases hp : findByName pool nm with
  | some f =>
    simpa using innerInv_remove_append h _ (grpName_setGroup f g) nm
  | none =>
    cases ha : findByName acc nm with
    | some f =>
      simpa using innerInv_remove_append h _ (grpName_setGroup f g) nm
    | none => simpa using h

theorem innerInv_fold {ns : List String} {g : Group} (fields : List String)
    (st : List Field × List Field) (h : InnerInv ns g.name st.2) :
    InnerInv ns g.name (fields.foldl (assignStep g) st).2 := by
  induction fields generalizing st with
  | nil => exact h
  | cons nm rest ih =>
    obtain ⟨pool, acc⟩ := st
    exact ih _ (innerInv_step h nm)

theorem assign_runs : ∀ (gs : List Group) (ns : List String) (st : List Field × List Field),
    RunsOver ns st.2 →
    RunsOver (ns ++ gs.map (fun g => g.name))
      ((gs.foldl (fun st g => g.fields.foldl (assignStep g) st) st)).2 := by
  intro gs
  induction gs with
  | nil =>
    intro ns st h
    simpa using h
  | cons g rest ih =>
    intro ns st h
    have h1 : InnerInv ns g.name st.2 := ⟨st.2, [], by simp, h, by simp⟩
    have h2 := innerInv_fold g.fields st h1
    obtain ⟨old, cur, heq, hold, hcur⟩ := h2
    have h3 : RunsOver (ns ++ [g.name]) (g.fields.foldl (assignStep g) st).2 := by
      rw [heq]
      exact runsOver_append_block hold hcur
    have h4 := ih (ns ++ [g.name]) _ h3
    simp only [List.foldl_cons]
    simpa [List.append_assoc] using h4

theorem assignGroups_runs (gs : List Group) (pool : List Field) :
    RunsOver (gs.map (fun g => g.name)) (assignGroups gs pool).2 := by
  have := assign_runs gs [] (pool, []) (runsOver_nil [])
  simpa [assignGroups] using this

end Apos

namespace Apos

theorem removeFirstGroupNamed_sublist (l : List Group) (n : String) :
    (removeFirstGroupNamed l n).Sublist l := by
  induction l with
  | nil => simp [removeFirstGroupNamed]
  | cons g rest ih =>
    unfold removeFirstGroupNamed
    by_cases h : g.name = n
    · simp [h]
    · simp only [if_neg h]
      exact List.Sublist.cons₂ g ih

theorem rfgn_not_mem {l : List Group} {n : String}
    (h : (l.map (fun g => g.name)).Nodup) :
    n ∉ (removeFirstGroupNamed l n).map (fun g => g.name) := by
  induction l with
  | nil => simp [removeFirstGroupNamed]
  | cons g rest ih =>
    simp only [List.map_cons, List.nodup_cons] at h
    unfold removeFirstGroupNamed
    by_cases hg : g.name = n
    · simp only [if_pos hg]
      rw [← hg]
      exact h.1
    · simp only [if_neg hg, List.map_cons, List.mem_cons]
      push_neg
      exact ⟨fun he => hg he.symm, ih h.2⟩

theorem spliceIn_perm (l : List α) (i : Nat) (a : α) :
    (spliceIn l i a).Perm (a :: l) := by
  unfold spliceIn
  calc (l.take i ++ a :: l.drop i).Perm (a :: (l.take i ++ l.drop i)) := List.perm_middle
    _ = a :: l := by rw [List.take_append_drop]

theorem dedup_aux (k : Nat) : ∀ (gs acc : List Group),
    (acc.map (fun g => g.name)).Nodup →
    ((gs.foldl (fun ng g =>
      let ng := removeFirstGroupNamed ng g.name
      let i := match ng.findIdx? (fun h => h.last) with
        | some i => i
        | none => k
      spliceIn ng i g) acc).map (fun g => g.name)).Nodup := by
  intro gs
  induction gs with
  | nil => intro acc h; simpa using h
  | cons g rest ih =>
    intro acc h
    simp only [List.foldl_cons]
    apply ih
    have h1 : ((removeFirstGroupNamed acc g.name).map (fun g => g.name)).Nodup :=
      h.sublist (List.Sublist.map _ (removeFirstGroupNamed_sublist acc g.name))
    have h2 : g.name ∉ (removeFirstGroupNamed acc g.name).map (fun g => g.name) :=
      rfgn_not_mem h
    have h3 := (spliceIn_perm (removeFirstGroupNamed acc g.name)
      (match (removeFirstGroupNamed acc g.name).findIdx? (fun h => h.last) with
        | some i => i
        | none => k) g).map (fun g => g.name)
    exact h3.nodup_iff.2 (by simpa using List.nodup_cons.2 ⟨h2, h1⟩)

theorem dedupGroups_nodup (gs : List Group) :
    ((dedupGroups gs).map (fun g => g.name)).Nodup := by
  have := dedup_aux gs.length gs [] (by simp)
  simpa [dedupGroups] using this

end Apos

namespace Apos

theorem stabStep_eq (out : List Field) (idx : List (String × Nat)) (f : Field) :
    stabStep (out, idx) f =
      if grpName f = "" then (out, idx)
      else
        match (idx.find? (fun p => p.1 = grpName f)).map (·.2) with
        | some i =>
            (spliceIn out i f,
             idx.map (fun p => if p.1 = grpName f then (p.1, p.2 + 1) else p))
        | none => (out ++ [f], idx ++ [(grpName f, out.length + 1)]) := rfl

theorem stab_skip (fs : List Field) (h : ∀ f ∈ fs, grpName f = "") :
    ∀ st : List Field × List (String × Nat), fs.foldl stabStep st = st := by
  induction fs with
  | nil => intro st; rfl
  | cons f rest ih =>
    intro st
    obtain ⟨out, idx⟩ := st
    have hf : grpName f = "" := h f (List.mem_cons_self f rest)
    simp only [List.foldl_cons, stabStep_eq, if_pos hf]
    exact ih (fun x hx => h x (List.mem_cons_of_mem f hx)) (out, idx)

theorem stab_fields (n : String) (hn : n ≠ "") (fs : List Field)
    (hfs : ∀ f ∈ fs, grpName f = n) :
    ∀ (out : List Field) (idxA : List (String × Nat)), (∀ q ∈ idxA, q.1 ≠ n) →
    fs.foldl stabStep (out, idxA ++ [(n, out.length)]) =
      (out ++ fs, idxA ++ [(n, out.length + fs.length)]) := by
  induction fs with
  | nil => intro out idxA hA; simp
  | cons f rest ih =>
    intro out idxA hA
    have hf : grpName f = n := hfs f (List.mem_cons_self f rest)
    have h1 : idxA.find? (fun p => p.1 = n) = none := by
      rw [List.find?_eq_none]
      intro q hq
      simpa using hA q hq
    have hfind : (idxA ++ [(n, out.length)]).find? (fun p => p.1 = n)
        = some (n, out.length) := by
      rw [List.find?_append, h1, Option.none_or]
      simp [List.find?]
    have hsplice : spliceIn out out.length f = out ++ [f] := by
      unfold spliceIn
      rw [List.take_length, List.drop_length]
    have hmapA : idxA.map (fun p => if p.1 = n then (p.1, p.2 + 1) else p) = idxA := by
      have hfn : ∀ q ∈ idxA, (fun p => if p.1 = n then (p.1, p.2 + 1) else p) q = id q := by
        intro q hq
        simp [hA q hq]
      rw [List.map_congr_left hfn, List.map_id]
    have hstep : stabStep (out, idxA ++ [(n, out.length)]) f
        = (out ++ [f], idxA ++ [(n, out.length + 1)]) := by
      rw [stabStep_eq, if_neg (show ¬(grpName f = "") by rw [hf]; exact hn), hf, hfind]
      simp only [Option.map_some']
      rw [hsplice, List.map_append, hmapA]
      simp only [List.map_cons, List.map_nil, if_pos rfl, eq_self_iff_true, if_true]
    rw [List.foldl_cons, hstep]
    have h2 := ih (fun x hx => hfs x (List.mem_cons_of_mem f hx)) (out ++ [f]) idxA hA
    rw [List.length_append] at h2
    simp only [List.length_singleton] at h2
    rw [h2]
    rw [Prod.ext_iff]
    constructor
    · simp [List.append_assoc]
    · simp only [List.length_cons]
      have harith : out.length + 1 + rest.length = out.length + (rest.length + 1) := by omega
      rw [harith]

end Apos

namespace Apos

theorem stab_fresh_cons (n : String) (hn : n ≠ "") (f : Field) (rest : List Field)
    (hf : grpName f = n) (hrest : ∀ x ∈ rest, grpName x = n)
    (out : List Field) (idx0 : List (String × Nat)) (h0 : ∀ q ∈ idx0, q.1 ≠ n) :
    (f :: rest).foldl stabStep (out, idx0) =
      (out ++ f :: rest, idx0 ++ [(n, out.length + (rest.length + 1))]) := by
  have hfind : idx0.find? (fun p => p.1 = grpName f) = none := by
    rw [List.find?_eq_none]
    intro q hq
    simp [hf, h0 q hq]
  have hstep : stabStep (out, idx0) f = (out ++ [f], idx0 ++ [(n, out.length + 1)]) := by
    rw [stabStep_eq, if_neg (show ¬(grpName f = "") by rw [hf]; exact hn), hfind]
    rw [hf]
    simp only [Option.map_none']
  rw [List.foldl_cons, hstep]
  have h2 := stab_fields n hn rest hrest (out ++ [f]) idx0 h0
  rw [List.length_append] at h2
  simp only [List.length_singleton] at h2
  rw [h2]
  rw [Prod.ext_iff]
  constructor
  · simp [List.append_assoc]
  · have harith : out.length + 1 + rest.length = out.length + (rest.length + 1) := by omega
    rw [harith]

theorem idxOfBlocks_keys (bs : List (String × List Field)) (pos : Nat) :
    (idxOfBlocks bs pos).map Prod.fst = bs.map Prod.fst := by
  induction bs generalizing pos with
  | nil => rfl
  | cons p rest ih =>
    unfold idxOfBlocks
    simp [ih]

theorem idxOfBlocks_cons (p : String × List Field) (rest : List (String × List Field))
    (pos : Nat) :
    idxOfBlocks (p :: rest) pos
      = (p.1, pos + p.2.length) :: idxOfBlocks rest (pos + p.2.length) := rfl

theorem idxOfBlocks_append (xs ys : List (String × List Field)) : ∀ pos : Nat,
    idxOfBlocks (xs ++ ys) pos =
      idxOfBlocks xs pos ++ idxOfBlocks ys (pos + ((xs.map Prod.snd).flatten).length) := by
  induction xs with
  | nil => intro pos; simp [idxOfBlocks]
  | cons p rest ih =>
    intro pos
    rw [List.cons_append, idxOfBlocks_cons, ih, idxOfBlocks_cons]
    simp only [List.map_cons, List.flatten_cons, List.length_append, List.cons_append]
    have h : pos + p.2.length + (List.map Prod.snd rest).flatten.length
        = pos + (p.2.length + (List.map Prod.snd rest).flatten.length) := by omega
    rw [h]

end Apos

namespace Apos

theorem keptBlocks_cons_skip (n : String) (fs : List Field)
    (rest : List (String × List Field)) (h : n = "" ∨ fs = []) :
    keptBlocks ((n, fs) :: rest) = keptBlocks rest := by
  unfold keptBlocks
  rcases h with h | h <;> simp [h]

theorem keptBlocks_cons_keep (n : String) (fs : List Field)
    (rest : List (String × List Field)) (hn : n ≠ "") (hfs : fs ≠ []) :
    keptBlocks ((n, fs) :: rest) = (n, fs) :: keptBlocks rest := by
  unfold keptBlocks
  simp [hn, hfs]

theorem stab_blocks : ∀ (bs : List (String × List Field))
    (out : List Field) (idx0 : List (String × Nat)),
    (∀ p ∈ bs, ∀ f ∈ p.2, grpName f = p.1) →
    (∀ p ∈ bs, ∀ q ∈ idx0, q.1 ≠ p.1) →
    ((bs.map Prod.fst).Nodup) →
    ((bs.map Prod.snd).flatten).foldl stabStep (out, idx0) =
      (out ++ ((keptBlocks bs).map Prod.snd).flatten,
       idx0 ++ idxOfBlocks (keptBlocks bs) out.length) := by
  intro bs
  induction bs with
  | nil =>
    intro out idx0 _ _ _
    simp [keptBlocks, idxOfBlocks]
  | cons p rest ih =>
    intro out idx0 hty hidx hnodup
    obtain ⟨n, fs⟩ := p
    have htyh : ∀ f ∈ fs, grpName f = n :=
      fun f hf => hty (n, fs) (List.mem_cons_self _ _) f hf
    have htyr : ∀ p ∈ rest, ∀ f ∈ p.2, grpName f = p.1 :=
      fun p hp => hty p (List.mem_cons_of_mem _ hp)
    have hnodupr : (rest.map Prod.fst).Nodup := by
      simp only [List.map_cons, List.nodup_cons] at hnodup
      exact hnodup.2
    simp only [List.map_cons, List.flatten_cons]
    rw [List.foldl_append]
    by_cases hn : n = ""
    · have hskip := stab_skip fs (by intro f hf; rw [htyh f hf, hn]) (out, idx0)
      rw [hskip, keptBlocks_cons_skip n fs rest (Or.inl hn)]
      exact ih out idx0 htyr (fun p hp => hidx p (List.mem_cons_of_mem _ hp)) hnodupr
    · cases fs with
      | nil =>
        rw [keptBlocks_cons_skip n [] rest (Or.inr rfl)]
        simp only [List.foldl_nil]
        exact ih out idx0 htyr (fun p hp => hidx p (List.mem_cons_of_mem _ hp)) hnodupr
      | cons f fs' =>
        have h0 : ∀ q ∈ idx0, q.1 ≠ n :=
          fun q hq => hidx (n, f :: fs') (List.mem_cons_self _ _) q hq
        rw [stab_fresh_cons n hn f fs' (htyh f (List.mem_cons_self _ _))
          (fun x hx => htyh x (List.mem_cons_of_mem _ hx)) out idx0 h0]
        rw [keptBlocks_cons_keep n (f :: fs') rest hn (by simp)]
        have hidx' : ∀ p ∈ rest, ∀ q ∈ idx0 ++ [(n, out.length + (fs'.length + 1))], q.1 ≠ p.1 := by
          intro p hp q hq
          rcases List.mem_append.1 hq with h | h
          · exact hidx p (List.mem_cons_of_mem _ hp) q h
          · simp at h
            subst h
            have hne : n ≠ p.1 := by
              simp only [List.map_cons, List.nodup_cons] at hnodup
              intro he
              exact hnodup.1 (he ▸ List.mem_map_of_mem Prod.fst hp)
            exact hne
        rw [ih (out ++ f :: fs') (idx0 ++ [(n, out.length + (fs'.length + 1))]) htyr hidx' hnodupr]
        rw [idxOfBlocks_cons]
        rw [Prod.ext_iff]
        constructor
        · simp [List.append_assoc]
        · simp [List.append_assoc]

end Apos

namespace Apos

theorem stab_mid (d : String) (hd : d ≠ "") (L : List Field)
    (hL : ∀ f ∈ L, grpName f = d) :
    ∀ (X Y : List Field) (idxA idxB : List (String × Nat)),
    (∀ q ∈ idxA, q.1 ≠ d) → (∀ q ∈ idxB, q.1 ≠ d) →
    L.foldl stabStep (X ++ Y, idxA ++ (d, X.length) :: idxB) =
      (X ++ L ++ Y, idxA ++ (d, X.length + L.length) :: idxB) := by
  induction L with
  | nil =>
    intro X Y idxA idxB hA hB
    simp
  | cons f rest ih =>
    intro X Y idxA idxB hA hB
    have hf : grpName f = d := hL f (List.mem_cons_self f rest)
    have hfind : (idxA ++ (d, X.length) :: idxB).find? (fun p => p.1 = d)
        = some (d, X.length) := by
      have h1 : idxA.find? (fun p => p.1 = d) = none := by
        rw [List.find?_eq_none]
        intro q hq
        simpa using hA q hq
      rw [List.find?_append, h1, Option.none_or]
      simp [List.find?]
    have hsplice : spliceIn (X ++ Y) X.length f = (X ++ [f]) ++ Y := by
      unfold spliceIn
      rw [List.take_left, List.drop_left]
      simp
    have hmap : (idxA ++ (d, X.length) :: idxB).map
        (fun p => if p.1 = d then (p.1, p.2 + 1) else p)
        = idxA ++ (d, X.length + 1) :: idxB := by
      rw [List.map_append]
      congr 1
      · have hfn : ∀ q ∈ idxA, (fun p => if p.1 = d then (p.1, p.2 + 1) else p) q = id q := by
          intro q hq
          simp [hA q hq]
        rw [List.map_congr_left hfn, List.map_id]
      · simp only [List.map_cons, if_pos rfl]
        congr 1
        have hfn : ∀ q ∈ idxB, (fun p => if p.1 = d then (p.1, p.2 + 1) else p) q = id q := by
          intro q hq
          simp [hB q hq]
        rw [List.map_congr_left hfn, List.map_id]
    have hstep : stabStep (X ++ Y, idxA ++ (d, X.length) :: idxB) f
        = ((X ++ [f]) ++ Y, idxA ++ (d, (X ++ [f]).length) :: idxB) := by
      rw [stabStep_eq, if_neg (show ¬(grpName f = "") by rw [hf]; exact hd), hf, hfind]
      simp only [Option.map_some']
      rw [hsplice, hmap]
      simp
    rw [List.foldl_cons, hstep]
    rw [ih (fun x hx => hL x (List.mem_cons_of_mem f hx)) (X ++ [f]) Y idxA idxB hA hB]
    rw [Prod.ext_iff]
    constructor
    · simp [List.append_assoc]
    · simp only [List.length_append, List.length_cons, List.length_singleton]
      have harith : X.length + (List.length ([] : List Field) + 1) + rest.length
          = X.length + (rest.length + 1) := by
        simp only [List.length_nil]
        omega
      rw [harith]

end Apos

namespace Apos

theorem hasGrp_true_iff {n : String} {f : Field} : hasGrp n f = true ↔ grpName f = n := by
  simp [hasGrp]

theorem filter_of_all {L : List Field} {d : String} (h : ∀ f ∈ L, grpName f = d)
    (n : String) : L.filter (hasGrp n) = if n = d then L else [] := by
  by_cases hnd : n = d
  · subst hnd
    simp only [if_pos rfl]
    apply List.filter_eq_self.2
    intro f hf
    exact hasGrp_true_iff.2 (h f hf)
  · simp only [if_neg hnd]
    apply List.filter_eq_nil_iff.2
    intro f hf
    simp only [Bool.not_eq_true]
    rw [← Bool.not_eq_true]
    intro hc
    exact hnd ((hasGrp_true_iff.1 hc).symm.trans (h f hf))

theorem flatten_filter_not_mem {bs : List (String × List Field)}
    (hty : ∀ p ∈ bs, ∀ f ∈ p.2, grpName f = p.1) {n : String}
    (hmem : ∀ p ∈ bs, p.1 ≠ n) :
    ((bs.map Prod.snd).flatten).filter (hasGrp n) = [] := by
  induction bs with
  | nil => simp
  | cons p rest ih =>
    simp only [List.map_cons, List.flatten_cons, List.filter_append]
    rw [filter_of_all (hty p (List.mem_cons_self p rest)) n,
      if_neg (fun he => hmem p (List.mem_cons_self p rest) he.symm)]
    rw [ih (fun q hq => hty q (List.mem_cons_of_mem p hq))
      (fun q hq => hmem q (List.mem_cons_of_mem p hq))]
    rfl

theorem kept_filter {bs : List (String × List Field)}
    (hty : ∀ p ∈ bs, ∀ f ∈ p.2, grpName f = p.1) {n : String} (hn : n ≠ "") :
    (((keptBlocks bs).map Prod.snd).flatten).filter (hasGrp n)
      = ((bs.map Prod.snd).flatten).filter (hasGrp n) := by
  induction bs with
  | nil => simp [keptBlocks]
  | cons p rest ih =>
    have ihr := ih (fun q hq => hty q (List.mem_cons_of_mem p hq))
    obtain ⟨m, fs⟩ := p
    by_cases hm : m = ""
    · rw [keptBlocks_cons_skip m fs rest (Or.inl hm)]
      simp only [List.map_cons, List.flatten_cons, List.filter_append]
      rw [filter_of_all (hty (m, fs) (List.mem_cons_self _ _)) n,
        if_neg (fun he => hn (he.trans hm)), ihr]
      rfl
    · cases fs with
      | nil =>
        rw [keptBlocks_cons_skip m [] rest (Or.inr rfl)]
        simp only [List.map_cons, List.flatten_cons, List.filter_append, ihr]
        simp
      | cons f fs' =>
        rw [keptBlocks_cons_keep m (f :: fs') rest hm (by simp)]
        simp only [List.map_cons, List.flatten_cons, List.filter_append, ihr]

theorem mem_flatten_grpName {bs : List (String × List Field)}
    (hty : ∀ p ∈ bs, ∀ f ∈ p.2, grpName f = p.1)
    (hne : ∀ p ∈ bs, p.1 ≠ "") :
    ∀ f ∈ (bs.map Prod.snd).flatten, grpName f ≠ "" := by
  intro f hf
  rw [List.mem_flatten] at hf
  obtain ⟨l, hl, hfl⟩ := hf
  obtain ⟨p, hp, rfl⟩ := List.mem_map.1 hl
  rw [hty p hp f hfl]
  exact hne p hp

theorem keptBlocks_sub (bs : List (String × List Field)) :
    (keptBlocks bs).Sublist bs :=
  List.filter_sublist bs

theorem keptBlocks_ne_empty {bs : List (String × List Field)} :
    ∀ p ∈ keptBlocks bs, p.1 ≠ "" := by
  intro p hp
  have := List.of_mem_filter hp
  simp only [Bool.and_eq_true, Bool.not_eq_true'] at this
  intro he
  have hb : (p.1 == "") = true := beq_iff_eq.2 he
  rw [this.1] at hb
  exact Bool.false_ne_true hb

end Apos

namespace Apos

theorem groupedRuns_of_blocks (bs : List (String × List Field))
    (hty : ∀ p ∈ bs, ∀ f ∈ p.2, grpName f = p.1)
    (hnodup : (bs.map Prod.fst).Nodup) :
    GroupedRuns ((bs.map Prod.snd).flatten) :=
  ⟨bs, rfl, hnodup, hty⟩

theorem stabilize_master (C L : List Field) (ns : List String) (d : String)
    (hC : RunsOver ns C) (hn : ns.Nodup) (hL : ∀ f ∈ L, grpName f = d) :
    GroupedRuns (stabilize (C ++ L)) ∧
    (∀ f ∈ stabilize (C ++ L), grpName f ≠ "") ∧
    (∀ n, n ≠ "" →
      (stabilize (C ++ L)).filter (hasGrp n) = (C ++ L).filter (hasGrp n)) := by
  obtain ⟨bs, rfl, hsub, hty⟩ := hC
  have hbsnodup : (bs.map Prod.fst).Nodup := hsub.nodup hn
  have hKty : ∀ p ∈ keptBlocks bs, ∀ f ∈ p.2, grpName f = p.1 :=
    fun p hp => hty p ((keptBlocks_sub bs).subset hp)
  have hKnodup : ((keptBlocks bs).map Prod.fst).Nodup :=
    ((keptBlocks_sub bs).map Prod.fst).nodup hbsnodup
  have hKne : ∀ p ∈ keptBlocks bs, p.1 ≠ "" := keptBlocks_ne_empty
  have hphase1 : ((bs.map Prod.snd).flatten).foldl stabStep ([], []) =
      ((((keptBlocks bs).map Prod.snd).flatten), idxOfBlocks (keptBlocks bs) 0) := by
    rw [stab_blocks bs [] [] hty (by simp) hbsnodup]
    simp
  by_cases hd : d = ""
  · -- the leftover fields all have a falsy group name and are dropped
    have hskip := stab_skip L (fun f hf => (hL f hf).trans hd)
    have hout : stabilize ((bs.map Prod.snd).flatten ++ L)
        = ((keptBlocks bs).map Prod.snd).flatten := by
      unfold stabilize
      rw [List.foldl_append, hphase1, hskip]
    rw [hout]
    refine ⟨groupedRuns_of_blocks _ hKty hKnodup, mem_flatten_grpName hKty hKne, ?_⟩
    intro n hn'
    rw [kept_filter hty hn', List.filter_append,
      filter_of_all hL n, if_neg (fun he => hn' (he.trans hd))]
    simp
  · by_cases hdK : d ∈ (keptBlocks bs).map Prod.fst
    · -- the leftovers extend an existing run of the same group
      obtain ⟨p, hpK, hpd⟩ := List.mem_map.1 hdK
      obtain ⟨k1, k2, hKsplit⟩ := List.append_of_mem hpK
      have hnames : ((k1 ++ p :: k2).map Prod.fst).Nodup := hKsplit ▸ hKnodup
      rw [List.map_append, List.map_cons] at hnames
      have hd1 : ∀ q ∈ k1, q.1 ≠ d := by
        intro q hq he
        have hdisj := List.disjoint_of_nodup_append hnames
        exact hdisj (he ▸ List.mem_map_of_mem Prod.fst hq)
          (hpd ▸ List.mem_cons_self p.1 (k2.map Prod.fst))
      have hd2 : ∀ q ∈ k2, q.1 ≠ d := by
        intro q hq he
        have hr := hnames.of_append_right
        rw [List.nodup_cons] at hr
        exact hr.1 (hpd ▸ he ▸ List.mem_map_of_mem Prod.fst hq)
      have hFK : (((keptBlocks bs).map Prod.snd).flatten)
          = (List.map Prod.snd k1).flatten ++ p.2
            ++ (List.map Prod.snd k2).flatten := by
        rw [hKsplit]
        simp [List.append_assoc]
      have hidx : idxOfBlocks (keptBlocks bs) 0
          = idxOfBlocks k1 0
            ++ (d, ((List.map Prod.snd k1).flatten ++ p.2).length)
              :: idxOfBlocks k2 (((List.map Prod.snd k1).flatten ++ p.2).length) := by
        rw [hKsplit, idxOfBlocks_append, idxOfBlocks_cons]
        rw [hpd]
        simp [List.length_append]
      have hqA : ∀ q ∈ idxOfBlocks k1 0, q.1 ≠ d := by
        intro q hq he
        have : q.1 ∈ (idxOfBlocks k1 0).map Prod.fst := List.mem_map_of_mem Prod.fst hq
        rw [idxOfBlocks_keys] at this
        obtain ⟨r, hr, hre⟩ := List.mem_map.1 this
        exact hd1 r hr (hre.trans he)
      have hqB : ∀ q ∈ idxOfBlocks k2 (((List.map Prod.snd k1).flatten ++ p.2).length),
          q.1 ≠ d := by
        intro q hq he
        have : q.1 ∈ (idxOfBlocks k2 _).map Prod.fst := List.mem_map_of_mem Prod.fst hq
        rw [idxOfBlocks_keys] at this
        obtain ⟨r, hr, hre⟩ := List.mem_map.1 this
        exact hd2 r hr (hre.trans he)
      have hmid := stab_mid d hd L hL ((List.map Prod.snd k1).flatten ++ p.2)
        ((List.map Prod.snd k2).flatten) (idxOfBlocks k1 0)
        (idxOfBlocks k2 (((List.map Prod.snd k1).flatten ++ p.2).length)) hqA hqB
      have hout : stabilize ((bs.map Prod.snd).flatten ++ L)
          = ((List.map Prod.snd k1).flatten ++ p.2) ++ L
            ++ (List.map Prod.snd k2).flatten := by
        unfold stabilize
        rw [List.foldl_append, hphase1, hFK, hidx, List.append_assoc
          ((List.map Prod.snd k1).flatten) p.2 ((List.map Prod.snd k2).flatten)]
        rw [show (List.map Prod.snd k1).flatten ++ (p.2 ++ (List.map Prod.snd k2).flatten)
          = ((List.map Prod.snd k1).flatten ++ p.2) ++ (List.map Prod.snd k2).flatten
          from by rw [List.append_assoc]]
        rw [hmid]
      have hty1 : ∀ q ∈ k1, ∀ f ∈ q.2, grpName f = q.1 := by
        intro q hq
        exact hKty q (hKsplit ▸ List.mem_append_left _ hq)
      have hty2 : ∀ q ∈ k2, ∀ f ∈ q.2, grpName f = q.1 := by
        intro q hq
        exact hKty q (hKsplit ▸ List.mem_append_right _ (List.mem_cons_of_mem p hq))
      have htyD : ∀ f ∈ p.2, grpName f = d := by
        intro f hf
        rw [hKty p hpK f hf, hpd]
      have hbs' : ((List.map Prod.snd k1).flatten ++ p.2) ++ L
            ++ (List.map Prod.snd k2).flatten
          = (((k1 ++ (d, p.2 ++ L) :: k2).map Prod.snd).flatten) := by
        simp [List.append_assoc]
      have hty' : ∀ q ∈ k1 ++ (d, p.2 ++ L) :: k2, ∀ f ∈ q.2, grpName f = q.1 := by
        intro q hq
        rcases List.mem_append.1 hq with h | h
        · exact hty1 q h
        · rcases List.mem_cons.1 h with h | h
          · subst h
            intro f hf
            rcases List.mem_append.1 hf with h | h
            · exact htyD f h
            · exact hL f h
          · exact hty2 q h
      have hnodup' : (((k1 ++ (d, p.2 ++ L) :: k2).map Prod.fst)).Nodup := by
        rw [List.map_append, List.map_cons]
        rw [← hpd] at *
        exact hnames
      have hne' : ∀ q ∈ k1 ++ (d, p.2 ++ L) :: k2, q.1 ≠ "" := by
        intro q hq
        rcases List.mem_append.1 hq with h | h
        · exact hKne q (hKsplit ▸ List.mem_append_left _ h)
        · rcases List.mem_cons.1 h with h | h
          · rw [h]
            exact hd
          · exact hKne q (hKsplit ▸ List.mem_append_right _ (List.mem_cons_of_mem p h))
      rw [hout, hbs']
      refine ⟨groupedRuns_of_blocks _ hty' hnodup', mem_flatten_grpName hty' hne', ?_⟩
      intro n hn'
      rw [← hbs']
      rw [List.filter_append, List.filter_append, List.filter_append, List.filter_append,
        kept_filter hty hn' |>.symm, hFK, List.filter_append, List.filter_append]
      by_cases hnd : n = d
      · rw [filter_of_all hL n, if_pos hnd,
          flatten_filter_not_mem hty1 (fun q hq he => hd1 q hq (he.trans hnd)),
          flatten_filter_not_mem hty2 (fun q hq he => hd2 q hq (he.trans hnd))]
        simp
      · rw [filter_of_all hL n, if_neg hnd]
        simp
    · -- the leftovers form a fresh block at the end
      have h0 : ∀ q ∈ idxOfBlocks (keptBlocks bs) 0, q.1 ≠ d := by
        intro q hq he
        have : q.1 ∈ (idxOfBlocks (keptBlocks bs) 0).map Prod.fst :=
          List.mem_map_of_mem Prod.fst hq
        rw [idxOfBlocks_keys] at this
        exact hdK (he ▸ this)
      have hout : stabilize ((bs.map Prod.snd).flatten ++ L)
          = (((keptBlocks bs).map Prod.snd).flatten) ++ L := by
        unfold stabilize
        rw [List.foldl_append, hphase1]
        cases L with
        | nil => simp
        | cons f rest =>
          rw [stab_fresh_cons d hd f rest (hL f (List.mem_cons_self f rest))
            (fun x hx => hL x (List.mem_cons_of_mem f hx)) _ _ h0]
      have hbs' : (((keptBlocks bs).map Prod.snd).flatten) ++ L
          = (((keptBlocks bs ++ [(d, L)]).map Prod.snd).flatten) := by
        simp
      have hty' : ∀ q ∈ keptBlocks bs ++ [(d, L)], ∀ f ∈ q.2, grpName f = q.1 := by
        intro q hq
        rcases List.mem_append.1 hq with h | h
        · exact hKty q h
        · simp at h
          subst h
          exact hL
      have hnodup' : ((keptBlocks bs ++ [(d, L)]).map Prod.fst).Nodup := by
        rw [List.map_append]
        exact hKnodup.append (by simp) (by
          intro x hx hy
          simp at hy
          subst hy
          exact hdK hx)
      have hne' : ∀ q ∈ keptBlocks bs ++ [(d, L)], q.1 ≠ "" := by
        intro q hq
        rcases List.mem_append.1 hq with h | h
        · exact hKne q h
        · simp at h
          subst h
          exact hd
      rw [hout, hbs']
      refine ⟨groupedRuns_of_blocks _ hty' hnodup', mem_flatten_grpName hty' hne', ?_⟩
      intro n hn'
      rw [← hbs', List.filter_append, kept_filter hty hn', List.filter_append]

end Apos

namespace Apos

theorem filter_flatten_blockwise (q : String → Bool) :
    ∀ (bs : List (String × List Field)),
    (∀ p ∈ bs, ∀ f ∈ p.2, grpName f = p.1) →
    ((bs.map Prod.snd).flatten).filter (fun f => q (grpName f))
      = ((bs.filter (fun p => q p.1)).map Prod.snd).flatten := by
  intro bs
  induction bs with
  | nil => simp
  | cons p rest ih =>
    intro hty
    have ihr := ih (fun x hx => hty x (List.mem_cons_of_mem p hx))
    have hp := hty p (List.mem_cons_self p rest)
    simp only [List.map_cons, List.flatten_cons, List.filter_append, ihr]
    by_cases hq : q p.1
    · have h1 : p.2.filter (fun f => q (grpName f)) = p.2 := by
        apply List.filter_eq_self.2
        intro f hf
        rw [hp f hf]
        exact hq
      rw [h1]
      simp [List.filter_cons, hq]
    · have h1 : p.2.filter (fun f => q (grpName f)) = [] := by
        apply List.filter_eq_nil_iff.2
        intro f hf
        rw [hp f hf]
        simpa using hq
      rw [h1]
      simp [List.filter_cons, hq]

theorem isDefaultGrp_as_pred (f : Field) :
    isDefaultGrp f = (fun s => decide (s = "default")) (grpName f) := rfl

theorem moveDefault_groupedRuns {l : List Field} (h : GroupedRuns l) :
    GroupedRuns (moveDefaultLast l) := by
  obtain ⟨bs, rfl, hnodup, hty⟩ := h
  unfold moveDefaultLast
  have h1 : ((bs.map Prod.snd).flatten).filter (fun f => !(isDefaultGrp f))
      = ((bs.filter (fun p => !(decide (p.1 = "default")))).map Prod.snd).flatten := by
    rw [show (fun f => !(isDefaultGrp f))
      = (fun f => (fun s => !(decide (s = "default"))) (grpName f)) from rfl]
    exact filter_flatten_blockwise (fun s => !(decide (s = "default"))) bs hty
  have h2 : ((bs.map Prod.snd).flatten).filter isDefaultGrp
      = ((bs.filter (fun p => decide (p.1 = "default"))).map Prod.snd).flatten := by
    rw [show (isDefaultGrp : Field → Bool)
      = (fun f => (fun s => decide (s = "default")) (grpName f)) from rfl]
    exact filter_flatten_blockwise (fun s => decide (s = "default")) bs hty
  rw [h1, h2]
  refine ⟨bs.filter (fun p => !(decide (p.1 = "default")))
    ++ bs.filter (fun p => decide (p.1 = "default")), by simp, ?_, ?_⟩
  · have hperm : (bs.filter (fun p => !(decide (p.1 = "default")))
        ++ bs.filter (fun p => decide (p.1 = "default"))).Perm bs := by
      have := List.filter_append_perm (fun p => !(decide (p.1 = "default"))) bs
      have hcongr : bs.filter (fun p => !(!(decide (p.1 = "default"))))
          = bs.filter (fun p => decide (p.1 = "default")) := by
        apply List.filter_congr
        intro x _
        simp
      rw [hcongr] at this
      exact this
    exact ((hperm.map Prod.fst).nodup_iff).2 hnodup
  · intro p hp
    rcases List.mem_append.1 hp with h | h
    · exact hty p (List.mem_filter.1 h).1
    · exact hty p (List.mem_filter.1 h).1

theorem moveDefault_filter (l : List Field) (n : String) :
    (moveDefaultLast l).filter (hasGrp n) = l.filter (hasGrp n) := by
  unfold moveDefaultLast
  rw [List.filter_append]
  by_cases hnd : n = "default"
  · subst hnd
    have h1 : (l.filter (fun f => !(isDefaultGrp f))).filter (hasGrp "default") = [] := by
      apply List.filter_eq_nil_iff.2
      intro f hf
      have := List.of_mem_filter hf
      simp only [Bool.not_eq_true'] at this
      simp only [isDefaultGrp, decide_eq_false_iff_not] at this
      simp [hasGrp, this]
    have h2 : (l.filter isDefaultGrp).filter (hasGrp "default") = l.filter (hasGrp "default") := by
      have hs : (l.filter isDefaultGrp).filter (hasGrp "default") = l.filter isDefaultGrp := by
        apply List.filter_eq_self.2
        intro f hf
        have := List.of_mem_filter hf
        simp only [isDefaultGrp, decide_eq_true_eq] at this
        simp [hasGrp, this]
      rw [hs]
      apply List.filter_congr
      intro f _
      by_cases h : grpName f = "default" <;> simp [isDefaultGrp, hasGrp, h]
    rw [h1, h2]
    rfl
  · have h2 : (l.filter isDefaultGrp).filter (hasGrp n) = [] := by
      apply List.filter_eq_nil_iff.2
      intro f hf
      have := List.of_mem_filter hf
      simp only [isDefaultGrp, decide_eq_true_eq] at this
      simp [hasGrp, this]
      intro he
      exact hnd he.symm
    have h1 : (l.filter (fun f => !(isDefaultGrp f))).filter (hasGrp n)
        = l.filter (hasGrp n) := by
      rw [List.filter_filter]
      apply List.filter_congr
      intro f _
      by_cases hg : grpName f = n
      · simp [hasGrp, isDefaultGrp, hg, hnd]
      · simp [hasGrp, hg]
    rw [h1, h2]
    simp

theorem name_applyTemplate (f : Field) : (applyTemplate f).name = f.name := by
  unfold applyTemplate
  cases f.template <;> rfl

theorem group_applyTemplate (f : Field) : (applyTemplate f).group = f.group := by
  unfold applyTemplate
  cases f.template <;> rfl

theorem groupedRuns_map_template {l : List Field} (h : GroupedRuns l) :
    GroupedRuns (l.map applyTemplate) := by
  obtain ⟨bs, rfl, hnodup, hty⟩ := h
  refine ⟨bs.map (fun p => (p.1, p.2.map applyTemplate)), ?_, by simpa using hnodup, ?_⟩
  · rw [List.map_flatten]
    congr 1
    rw [List.map_map, List.map_map]
    rfl
  · intro p hp f hf
    obtain ⟨q, hq, rfl⟩ := List.mem_map.1 hp
    obtain ⟨x, hx, rfl⟩ := List.mem_map.1 hf
    rw [grpName_applyTemplate]
    exact hty q hq x hx

theorem filter_map_template (l : List Field) (n : String) :
    (((l.map applyTemplate).filter (hasGrp n)).map (fun f => f.name))
      = ((l.filter (hasGrp n)).map (fun f => f.name)) := by
  rw [List.filter_map]
  have hcongr : l.filter (hasGrp n ∘ applyTemplate) = l.filter (hasGrp n) := by
    apply List.filter_congr
    intro f _
    simp only [Function.comp]
    unfold hasGrp
    rw [grpName_applyTemplate]
  rw [hcongr, List.map_map]
  apply List.map_congr_left
  intro f _
  simp only [Function.comp]
  rw [name_applyTemplate]

end Apos

namespace Apos
open Fixtures

theorem grpName_ne_iff {f : Field} (h : grpName f ≠ "") :
    ∃ g, f.group = some g ∧ g.name ≠ "" := by
  unfold grpName at h
  cases hg : f.group with
  | none => rw [hg] at h; exact absurd rfl h
  | some g => rw [hg] at h; exact ⟨g, rfl, h⟩

theorem composeGrouped_eq (dg : Option DefaultGroup) (o : ComposeOptions) :
    composeGrouped dg o =
      (assignGroups (composeGroups dg o) (composeWorking o)).2 ++
      (assignGroups (composeGroups dg o) (composeWorking o)).1.map
        (fun f => { f with group := some (groupRef ((composeGroups dg o).head?.getD
          (defaultGroupOf dg (composeWorking o)))) }) := rfl

/-- Claim C3.  For every composition spec (and any caller-level default group
override): every field of the schema returned by `compose` carries exactly one
group assignment (a single `group` record with a non-falsy name); the result
is a concatenation of blocks with pairwise-distinct group names, so all fields
sharing a group name occupy one contiguous run of the final order; and within
each run the fields appear in their first-seen order — restricting the final
order to any group name yields the same name sequence as restricting the
pre-stabilisation order (`composeGrouped`, the working order in which fields
were first placed into groups). -/
theorem compose_contiguous (dg : Option DefaultGroup) (o : ComposeOptions) :
    (∀ f ∈ compose dg o, ∃ g, f.group = some g ∧ g.name ≠ "") ∧
    GroupedRuns (compose dg o) ∧
    (∀ n, n ≠ "" →
      ((compose dg o).filter (hasGrp n)).map (fun f => f.name)
        = ((composeGrouped dg o).filter (hasGrp n)).map (fun f => f.name)) := by
  have hacc : RunsOver ((composeGroups dg o).map (fun g => g.name))
      (assignGroups (composeGroups dg o) (composeWorking o)).2 :=
    assignGroups_runs _ _
  have hnodup : ((composeGroups dg o).map (fun g => g.name)).Nodup := by
    unfold composeGroups
    exact dedupGroups_nodup _
  have hleft : ∀ f ∈ (assignGroups (composeGroups dg o) (composeWorking o)).1.map
      (fun f => { f with group := some (groupRef ((composeGroups dg o).head?.getD
        (defaultGroupOf dg (composeWorking o)))) }),
      grpName f = ((composeGroups dg o).head?.getD (defaultGroupOf dg (composeWorking o))).name := by
    intro f hf
    obtain ⟨x, hx, rfl⟩ := List.mem_map.1 hf
    rfl
  have hm := stabilize_master _ _ _ _ hacc hnodup hleft
  rw [← composeGrouped_eq] at hm
  refine ⟨?_, ?_, ?_⟩
  · intro f hf
    unfold compose at hf
    obtain ⟨x, hx, rfl⟩ := List.mem_map.1 hf
    have hxS : x ∈ stabilize (composeGrouped dg o) := by
      unfold moveDefaultLast at hx
      rcases List.mem_append.1 hx with h | h
      · exact (List.mem_filter.1 h).1
      · exact (List.mem_filter.1 h).1
    have hne := hm.2.1 x hxS
    rw [← grpName_applyTemplate] at hne
    exact grpName_ne_iff hne
  · unfold compose
    exact groupedRuns_map_template (moveDefault_groupedRuns hm.1)
  · intro n hn'
    unfold compose
    rw [filter_map_template, moveDefault_filter, hm.2.2 n hn']

/-- Witness for C3 at the concrete renamed-default spec: the first composed
field carries a single group record, and the `h`-run of the final order lists
the same names as the pre-stabilisation order. -/
theorem compose_contiguous_witness :
    (∃ g, (applyTemplate { fA with group := some ⟨"basics", "B", false⟩ }).group
      = some g ∧ g.name ≠ "") ∧
    ((compose (some dgBasics) optsRename).filter (hasGrp "h")).map (fun f => f.name)
      = ((composeGrouped (some dgBasics) optsRename).filter (hasGrp "h")).map
          (fun f => f.name) :=
  ⟨(compose_contiguous (some dgBasics) optsRename).1 _ (by decide),
   (compose_contiguous (some dgBasics) optsRename).2.2 "h" (by decide)⟩

end Apos

namespace Apos.HeapC

open Apos

theorem removeFirstByNameH_sublist (st : Store) (l : List Addr) (n : String) :
    (removeFirstByNameH st l n).Sublist l := by
  induction l with
  | nil => simp [removeFirstByNameH]
  | cons a rest ih =>
    unfold removeFirstByNameH
    by_cases h : (st a).name = n
    · simp [h]
    · simp only [if_neg h]
      exact List.Sublist.cons₂ a ih

theorem addFieldsPassH_mem (st : Store) (adds : List Addr) :
    ∀ (acc : List Addr) (a : Addr),
    a ∈ adds.foldl (fun sch x => removeFirstByNameH st sch (st x).name ++ [x]) acc →
    a ∈ acc ∨ a ∈ adds := by
  induction adds with
  | nil => intro acc a ha; exact Or.inl ha
  | cons b t ih =>
    intro acc a ha
    rcases ih _ a ha with h | h
    · rcases List.mem_append.1 h with h | h
      · exact Or.inl ((removeFirstByNameH_sublist st acc (st b).name).subset h)
      · simp at h
        subst h
        exact Or.inr (List.mem_cons_self a t)
    · exact Or.inr (List.mem_cons_of_mem b h)

theorem composeHAdds_mem (o : HeapOptions) (st0 : Store) :
    ∀ a ∈ composeHAdds o st0, a ∈ o.addFields := by
  intro a ha
  have h1 : a ∈ addFieldsPassH st0 o.addFields := (List.mem_filter.1 ha).1
  rcases addFieldsPassH_mem st0 o.addFields [] a h1 with h | h
  · cases h
  · exact h

theorem assignStepH_mem (g : Group) (S : List Addr)
    (store : Store) (pool acc : List Addr) (nm : String)
    (hp : ∀ x ∈ pool, x ∈ S) (ha : ∀ x ∈ acc, x ∈ S) :
    (∀ x ∈ (assignStepH g (store, pool, acc) nm).2.1, x ∈ S) ∧
    (∀ x ∈ (assignStepH g (store, pool, acc) nm).2.2, x ∈ S) := by
  have heq : assignStepH g (store, pool, acc) nm =
      match pool.find? (fun a => (store a).name = nm) with
      | some a =>
          let store' := upd store a { store a with group := some (groupRef g) }
          (store', removeFirstByNameH store' pool nm,
            removeFirstByNameH store' acc nm ++ [a])
      | none =>
          match acc.find? (fun a => (store a).name = nm) with
          | some a =>
              let store' := upd store a { store a with group := some (groupRef g) }
              (store', pool, removeFirstByNameH store' acc nm ++ [a])
          | none => (store, pool, acc) := rfl
  rw [heq]
  cases hf : pool.find? (fun a => (store a).name = nm) with
  | some b =>
    refine ⟨?_, ?_⟩
    · intro x hx
      exact hp x ((removeFirstByNameH_sublist _ pool nm).subset hx)
    · intro x hx
      rcases List.mem_append.1 hx with h | h
      · exact ha x ((removeFirstByNameH_sublist _ acc nm).subset h)
      · simp at h
        subst h
        exact hp x (List.mem_of_find?_eq_some hf)
  | none =>
    cases hf2 : acc.find? (fun a => (store a).name = nm) with
    | some b =>
      refine ⟨hp, ?_⟩
      intro x hx
      rcases List.mem_append.1 hx with h | h
      · exact ha x ((removeFirstByNameH_sublist _ acc nm).subset h)
      · simp at h
        subst h
        exact ha x (List.mem_of_find?_eq_some hf2)
    | none => exact ⟨hp, ha⟩

theorem assignFoldH_mem (g : Group) (S : List Addr) (fields : List String) :
    ∀ (st : Store × List Addr × List Addr),
    (∀ x ∈ st.2.1, x ∈ S) → (∀ x ∈ st.2.2, x ∈ S) →
    (∀ x ∈ (fields.foldl (assignStepH g) st).2.1, x ∈ S) ∧
    (∀ x ∈ (fields.foldl (assignStepH g) st).2.2, x ∈ S) := by
  induction fields with
  | nil => intro st hp ha; exact ⟨hp, ha⟩
  | cons nm rest ih =>
    intro st hp ha
    obtain ⟨store, pool, acc⟩ := st
    have h := assignStepH_mem g S store pool acc nm hp ha
    exact ih _ h.1 h.2

theorem assignGroupsFoldH_mem (S : List Addr) : ∀ (gs : List Group)
    (st : Store × List Addr × List Addr),
    (∀ x ∈ st.2.1, x ∈ S) → (∀ x ∈ st.2.2, x ∈ S) →
    (∀ x ∈ (gs.foldl (fun st g => g.fields.foldl (assignStepH g) st) st).2.1, x ∈ S) ∧
    (∀ x ∈ (gs.foldl (fun st g => g.fields.foldl (assignStepH g) st) st).2.2, x ∈ S) := by
  intro gs
  induction gs with
  | nil => intro st hp ha; exact ⟨hp, ha⟩
  | cons g rest ih =>
    intro st hp ha
    simp only [List.foldl_cons]
    have h1 := assignFoldH_mem g S g.fields st hp ha
    exact ih _ h1.1 h1.2

theorem assignGroupsH_mem (gs : List Group) (S : List Addr)
    (store : Store) (pool : List Addr) (hp : ∀ x ∈ pool, x ∈ S) :
    (∀ x ∈ (assignGroupsH gs store pool).2.1, x ∈ S) ∧
    (∀ x ∈ (assignGroupsH gs store pool).2.2, x ∈ S) :=
  assignGroupsFoldH_mem S gs (store, pool, []) hp (by simp)

end Apos.HeapC

namespace Apos.HeapC

open Apos Apos.Fixtures

theorem stabStepH_eq (store : Store) (out : List Addr) (idx : List (String × Nat))
    (a : Addr) :
    stabStepH store (out, idx) a =
      if grpName (store a) = "" then (out, idx)
      else
        match (idx.find? (fun p => p.1 = grpName (store a))).map (·.2) with
        | some i =>
            (spliceIn out i a,
             idx.map (fun p => if p.1 = grpName (store a) then (p.1, p.2 + 1) else p))
        | none => (out ++ [a], idx ++ [(grpName (store a), out.length + 1)]) := rfl

theorem stabStepH_mem (store : Store) (out : List Addr) (idx : List (String × Nat))
    (b : Addr) :
    ∀ x ∈ (stabStepH store (out, idx) b).1, x ∈ out ∨ x = b := by
  intro x hx
  rw [stabStepH_eq] at hx
  by_cases hg : grpName (store b) = ""
  · rw [if_pos hg] at hx
    exact Or.inl hx
  · rw [if_neg hg] at hx
    cases hf : (idx.find? (fun p => p.1 = grpName (store b))).map (·.2) with
    | some i =>
      rw [hf] at hx
      simp only at hx
      have := (spliceIn_perm out i b).subset hx
      rcases List.mem_cons.1 this with h | h
      · exact Or.inr h
      · exact Or.inl h
    | none =>
      rw [hf] at hx
      simp only at hx
      rcases List.mem_append.1 hx with h | h
      · exact Or.inl h
      · simp at h
        exact Or.inr h

theorem stabFoldH_mem (store : Store) : ∀ (l out : List Addr) (idx : List (String × Nat)),
    ∀ x ∈ (l.foldl (stabStepH store) (out, idx)).1, x ∈ out ∨ x ∈ l := by
  intro l
  induction l with
  | nil => intro out idx x hx; exact Or.inl hx
  | cons b t ih =>
    intro out idx x hx
    simp only [List.foldl_cons] at hx
    have hmem := stabStepH_mem store out idx b
    rcases ih (stabStepH store (out, idx) b).1 (stabStepH store (out, idx) b).2 x
      (by simpa using hx) with h | h
    · rcases hmem x h with h2 | h2
      · exact Or.inl h2
      · subst h2
        exact Or.inr (List.mem_cons_self x t)
    · exact Or.inr (List.mem_cons_of_mem b h)

end Apos.HeapC

namespace Apos.HeapC

open Apos Apos.Fixtures

/-- Claim C10.  `compose` incorporates the field objects of `addFields` into
its result by reference and mutates them in place.  Over the
heap-instrumented model: (i) for every spec and store, every reference in the
returned schema is one of the caller's own `addFields` references — no field
object is copied or allocated; (ii) at the concrete spec `hoW` over store
`stW`, the returned schema is exactly the caller's two references `[0, 1]`,
and the object at the caller's address 0 has been mutated in place —
`required` set by `requireFields`, a `default`-group descriptor attached, and
its `template` payload moved to the partial (`renderFn`) property — whereas
the caller's original object `stW 0` had `required := false`, no group and an
intact `template`. -/
theorem composeH_in_place (dg : Option DefaultGroup) (o : HeapOptions) (st : Store) :
    (∀ a ∈ (composeH dg o st).1, a ∈ o.addFields) ∧
    (composeH none hoW stW).1 = [0, 1] ∧
    (composeH none hoW stW).2 0 =
      { name := "a"
        ftype := "string"
        label := "A"
        required := true
        group := some ⟨"default", "Info", false⟩
        template := none
        renderFn := some "fancy" } ∧
    stW 0 =
      { name := "a"
        ftype := "string"
        label := "A"
        required := false
        group := none
        template := some "fancy"
        renderFn := none } := by
  refine ⟨?_, by decide, by decide, by decide⟩
  intro a ha
  have h1 : a ∈ composeHStabilized dg o st := by
    have : (composeH dg o st).1 = composeHFinalList dg o st := rfl
    rw [this] at ha
    unfold composeHFinalList at ha
    rcases List.mem_append.1 ha with h | h
    · exact (List.mem_filter.1 h).1
    · exact (List.mem_filter.1 h).1
  unfold composeHStabilized at h1
  rcases stabFoldH_mem (composeHLeftStore dg o st) _ [] [] a h1 with h | h
  · cases h
  · have hmem := assignGroupsH_mem (composeHGroups dg o st) (composeHAdds o st)
      (composeHReqStore o st) (composeHAdds o st) (fun x hx => hx)
    have hassigned : composeHAssigned dg o st
        = assignGroupsH (composeHGroups dg o st) (composeHReqStore o st)
          (composeHAdds o st) := rfl
    rcases List.mem_append.1 h with h2 | h2
    · apply composeHAdds_mem o st a
      apply hmem.2
      rw [← hassigned]
      exact h2
    · apply composeHAdds_mem o st a
      apply hmem.1
      rw [← hassigned]
      exact h2

/-- Witness for C10: the by-reference conjunct applied to the two concrete
references of `hoW`. -/
theorem composeH_in_place_witness :
    (0 : Addr) ∈ hoW.addFields ∧ (1 : Addr) ∈ hoW.addFields :=
  ⟨(composeH_in_place none hoW stW).1 0 (by decide),
   (composeH_in_place none hoW stW).1 1 (by decide)⟩

end Apos.HeapC
